import Mathlib

/-!
Shallow embedding of the chunking + hybrid retrieval + signal-detection core of the
repository (backend/app/chunker.py, backend/app/repositories.py, backend/app/search.py,
backend/app/alerts.py, src/savas_kb/alerts/detector.py, and the data models they use),
together with theorems settling the frozen claims about it.

Modelling conventions:
* Python `str` is modelled as `List Char` (`PyStr`); `len`, slicing, `lower`, `strip`,
  `split`, `count` and `in` are modelled by executable functions below that follow
  Python's semantics (e.g. `str.count` counts non-overlapping occurrences).
* Python `dict` (insertion-ordered) is modelled as an association list; insertion of a
  new key appends at the end, updating an existing key keeps its position.
* Python `float` is modelled as `ℚ`: every score the code computes is a sum/product of
  stored numbers, and the claims are about their algebraic structure, not rounding.
* `datetime` values are modelled as integers (epoch milliseconds); they are carried,
  never computed with.
* The embedding provider (`embedding.embed_text`, a SHA-256 based stub standing in for
  an external model) is out of the algorithmic core; functions that call it take the
  provider as an explicit argument `embed : PyStr → List ℚ`.
-/

namespace Savas

/-- Python `str` as a list of characters. -/
abbrev PyStr := List Char

/-- Convenience conversion from a Lean string literal. -/
def str (s : String) : PyStr := s.data

/-- Python `str.lower()` (ASCII case folding, as used by the code on ASCII data). -/
def pyLower (s : PyStr) : PyStr := s.map Char.toLower

/-- Python `str.strip()` with no arguments: drop leading and trailing whitespace. -/
def pyStrip (s : PyStr) : PyStr :=
  ((s.dropWhile Char.isWhitespace).reverse.dropWhile Char.isWhitespace).reverse

/-- Helper for `pySplit`: accumulates the current word (reversed) while scanning. -/
def pySplitAux : PyStr → PyStr → List PyStr
  | acc, [] => if acc.isEmpty then [] else [acc.reverse]
  | acc, c :: rest =>
    if c.isWhitespace then
      if acc.isEmpty then pySplitAux [] rest else acc.reverse :: pySplitAux [] rest
    else pySplitAux (c :: acc) rest

/-- Python `str.split()` with no arguments: split on whitespace runs, no empty parts. -/
def pySplit (s : PyStr) : List PyStr := pySplitAux [] s

/-- Fuelled scanner for `pyCount`; the fuel is the text length, which suffices because
each step consumes at least one character of the text. -/
def pyCountAux : Nat → PyStr → PyStr → Nat
  | 0, _, _ => 0
  | _ + 1, [], _ => 0
  | fuel + 1, c :: rest, tok =>
    if tok.isPrefixOf (c :: rest) then 1 + pyCountAux fuel ((c :: rest).drop tok.length) tok
    else pyCountAux fuel rest tok

/-- Python `str.count(sub)`: number of non-overlapping occurrences, scanning left to
right; counting the empty string yields `len + 1` as in Python. -/
def pyCount (text tok : PyStr) : Nat :=
  if tok.isEmpty then text.length + 1 else pyCountAux text.length text tok

/-- Python `sub in s` for strings: substring containment. -/
def pyInStr (sub s : PyStr) : Bool :=
  if sub.isEmpty then true
  else (List.range (s.length + 1)).any (fun i => sub.isPrefixOf (s.drop i))

/-- Python `s[-n:]` for `n > 0`: the trailing `min n (len s)` characters. -/
def takeLastChars (n : Nat) (s : PyStr) : PyStr := s.drop (s.length - n)

/-- Python `sep.join(parts)`. -/
def pyJoin (sep : PyStr) : List PyStr → PyStr
  | [] => []
  | [x] => x
  | x :: y :: rest => x ++ sep ++ pyJoin sep (y :: rest)

/-- Python `lst[:i]` for an `int` bound `i`: a (possibly empty) prefix; a negative
bound keeps all but the last `|i|` elements. -/
def pythonTake (i : Int) (l : List α) : List α :=
  if 0 ≤ i then l.take i.toNat else l.take (l.length - (-i).toNat)

/-- Lookup in an insertion-ordered association list (Python `dict.get`). -/
def dictGet (d : List (PyStr × α)) (k : PyStr) : Option α :=
  (d.find? (fun kv => decide (kv.1 = k))).map (·.2)

/-- Python `k in d` for a dict. -/
def hasKey (d : List (PyStr × α)) (k : PyStr) : Bool := (dictGet d k).isSome

/-- Python `d[k] = v`: update the first binding of `k` in place, else append. -/
def dictSet : List (PyStr × α) → PyStr → α → List (PyStr × α)
  | [], k, v => [(k, v)]
  | (k0, v0) :: rest, k, v =>
    if k0 = k then (k0, v) :: rest else (k0, v0) :: dictSet rest k v

/-- Python `defaultdict(float); d[k] += v`: add into the first binding of `k` in
place, else append `(k, 0 + v)`. -/
def dictAdd : List (PyStr × ℚ) → PyStr → ℚ → List (PyStr × ℚ)
  | [], k, v => [(k, v)]
  | (k0, v0) :: rest, k, v =>
    if k0 = k then (k0, v0 + v) :: rest else (k0, v0) :: dictAdd rest k v

/-- Value lookup with the `defaultdict(float)` default of `0`. -/
def valLookup (d : List (PyStr × ℚ)) (k : PyStr) : ℚ := (dictGet d k).getD 0

/-- Insert one scored entry into a list already sorted by descending score, keeping it
after strictly greater scores and before lower-or-equal ones. -/
def insertDesc (x : α × ℚ) : List (α × ℚ) → List (α × ℚ)
  | [] => [x]
  | y :: ys => if x.2 < y.2 then y :: insertDesc x ys else x :: y :: ys

/-- Python `sorted(items, key=lambda kv: kv[1], reverse=True)`: a stable descending
sort by score.  Insertion sort is stable and sorted, and a stable sort under a total
preorder is unique, so this agrees with Python's Timsort output. -/
def sortDesc : List (α × ℚ) → List (α × ℚ)
  | [] => []
  | x :: xs => insertDesc x (sortDesc xs)

/-! ## Data model (backend/app/models.py) -/

/-- models.Participant. -/
structure Participant where
  name : Option PyStr := none
  email : Option PyStr := none
  role : Option PyStr := none
deriving DecidableEq

/-- models.TranscriptSegment. -/
structure TranscriptSegment where
  start_ms : Int
  end_ms : Int
  speaker : Option PyStr := none
  text : PyStr
deriving DecidableEq

/-- models.Document. -/
structure Document where
  id : PyStr
  source : PyStr
  external_id : PyStr
  title : Option PyStr := none
  started_at : Option Int := none
  ended_at : Option Int := none
  workspace_id : Option PyStr := none
  project : Option PyStr := none
  tags : List PyStr := []
  participants : List Participant := []
deriving DecidableEq

/-- models.Chunk. -/
structure Chunk where
  id : PyStr
  document_id : PyStr
  idx : Nat
  speaker : Option PyStr := none
  start_ms : Option Int := none
  end_ms : Option Int := none
  text : PyStr
  token_count : Nat
deriving DecidableEq

/-- models.EmbeddingRecord. -/
structure EmbeddingRecord where
  id : PyStr
  chunk_id : PyStr
  model : PyStr
  vector : List ℚ
deriving DecidableEq

/-- models.SearchFilters (`time_range` is carried but never consulted by search). -/
structure SearchFilters where
  source : Option (List PyStr) := none
  project : Option (List PyStr) := none
  time_range : Option (List (PyStr × PyStr)) := none
  participants : Option (List PyStr) := none
deriving DecidableEq

/-- models.SearchRequest. -/
structure SearchRequest where
  query : PyStr
  filters : Option SearchFilters := none
  limit : Int := 20
  rerank : Bool := false
  viewer_email : Option PyStr := none

/-- The provenance dict attached to each search result. -/
structure Provenance where
  start_ms : Option Int
  end_ms : Option Int
  speaker : Option PyStr
  workspace_id : Option PyStr
  project : Option PyStr
deriving DecidableEq

/-- models.SearchResult. -/
structure SearchResult where
  id : PyStr
  document_id : PyStr
  source : PyStr
  title : Option PyStr
  text : PyStr
  score : ℚ
  rank : Nat
  provenance : Provenance
deriving DecidableEq

/-- models.AlertCandidate (`created_at` defaults to the wall clock in Python; it is
carried, never read, so the model stores an integer supplied by the caller). -/
structure AlertCandidate where
  call_id : PyStr
  document_id : PyStr
  chunks : List Chunk
  title : Option PyStr := none
  project : Option PyStr := none
  workspace_id : Option PyStr := none
  created_at : Int := 0

/-- The excerpt dict stored in `Alert.chunks` by AlertsService.score. -/
structure AlertExcerpt where
  text : PyStr
  speaker : Option PyStr
  start_ms : Option Int
deriving DecidableEq

/-- models.Alert (backend). -/
structure Alert where
  alert_type : PyStr
  call_id : PyStr
  title : Option PyStr
  project : Option PyStr
  workspace_id : Option PyStr
  chunks : List AlertExcerpt
  score : ℚ
  created_at : Int := 0

/-! ## Chunker (backend/app/chunker.py) -/

/-- The running `buffer_len` of chunker.chunk_segments: the code increments it by each
appended segment's raw length and resets it to the seed length on flush, so it always
equals this sum over the current buffer. -/
def segSum (buffer : List TranscriptSegment) : Nat :=
  (buffer.map (fun s => s.text.length)).sum

/-- The overlap seed built after a flush: the trailing `overlap_chars` characters of
the previous buffer's last segment, with that segment's metadata. -/
def overlapSeed (tail : TranscriptSegment) (overlap_chars : Nat) : TranscriptSegment :=
  { start_ms := tail.start_ms
    end_ms := tail.end_ms
    speaker := tail.speaker
    text := takeLastChars overlap_chars tail.text }

/-- The loop of chunker.chunk_segments, returning the successive flushed buffers (the
final non-empty buffer included).  Parameters follow the source: a blank segment is
skipped; a flush happens when the accumulated length plus the next segment's length
exceeds `target_chars` and the buffer is non-empty; after a flush the new buffer is
seeded with the overlap of the old buffer's last segment when `overlap_chars` is
non-zero. -/
def chunkBuffersLoop (target_chars overlap_chars : Nat) :
    List TranscriptSegment → List TranscriptSegment → List (List TranscriptSegment)
  | [], buffer => if buffer = [] then [] else [buffer]
  | seg :: rest, buffer =>
    if pyStrip seg.text = [] then chunkBuffersLoop target_chars overlap_chars rest buffer
    else if h : target_chars < segSum buffer + seg.text.length ∧ buffer ≠ [] then
      buffer :: chunkBuffersLoop target_chars overlap_chars rest
        ((if overlap_chars = 0 then []
          else [overlapSeed (buffer.getLast h.2) overlap_chars]) ++ [seg])
    else chunkBuffersLoop target_chars overlap_chars rest (buffer ++ [seg])

/-- chunker._flush: turn a buffer into a Chunk.  In Python `buffer[0].speaker` raises
on an empty buffer; `_flush` is only ever called on non-empty buffers, and the model
returns `none` fields there. -/
def _flush (buffer : List TranscriptSegment) (document_id : PyStr) (idx : Nat) : Chunk :=
  let text := pyJoin (str " ") (buffer.map (fun s => pyStrip s.text))
  { id := document_id ++ ':' :: (Nat.repr idx).data
    document_id := document_id
    idx := idx
    speaker := buffer.head?.elim none (fun s => s.speaker)
    start_ms := buffer.head?.map (fun s => s.start_ms)
    end_ms := buffer.getLast?.map (fun s => s.end_ms)
    text := text
    token_count := max (pySplit text).length 1 }

/-- chunker.chunk_segments (defaults in the source: `target_chars = 500`,
`overlap_chars = 50`): the flushed buffers in order, each turned into a Chunk with a
sequence index that increments once per emitted chunk starting at 0. -/
def chunk_segments (segments : List TranscriptSegment) (document_id : PyStr)
    (target_chars : Nat := 500) (overlap_chars : Nat := 50) : List Chunk :=
  ((chunkBuffersLoop target_chars overlap_chars segments []).enum).map
    (fun p => _flush p.2 document_id p.1)

/-- A buffer the chunker may flush: its accumulated raw length is within the target,
or it is a single (possibly oversized) segment, or an overlap seed (at most
`overlap_chars` characters) followed by the single segment appended right after a
flush. -/
def FlushedBufferOK (target_chars overlap_chars : Nat) (b : List TranscriptSegment) : Prop :=
  segSum b ≤ target_chars ∨ b.length = 1 ∨
    (b.length = 2 ∧ ∃ s, b.head? = some s ∧ s.text.length ≤ overlap_chars)

/-- A buffer containing at least one non-blank segment. -/
def BufferHasContent (b : List TranscriptSegment) : Prop :=
  ∃ s ∈ b, pyStrip s.text ≠ []

/-- Shorthand used by concrete test inputs below. -/
def mkSeg (t : String) : TranscriptSegment :=
  { start_ms := 0, end_ms := 1000, speaker := none, text := str t }

/-! ## Repository (backend/app/repositories.py) -/

/-- repositories.InMemoryRepository: documents, chunks and embeddings keyed by id,
chunk ids grouped by document, and the per-document ACL allow-lists. -/
structure InMemoryRepository where
  documents : List (PyStr × Document) := []
  chunks : List (PyStr × Chunk) := []
  embeddings : List (PyStr × EmbeddingRecord) := []
  chunks_by_doc : List (PyStr × List PyStr) := []
  acls : List (PyStr × List PyStr) := []

/-- `InMemoryRepository.__init__`. -/
def InMemoryRepository.init : InMemoryRepository := {}

/-- InMemoryRepository.upsert_document. -/
def InMemoryRepository.upsert_document (repo : InMemoryRepository) (doc : Document)
    (allowed_emails : Option (List PyStr) := none) : InMemoryRepository :=
  { repo with
    documents := dictSet repo.documents doc.id doc
    acls := match allowed_emails with
      | none => repo.acls
      | some emails => dictSet repo.acls doc.id emails }

/-- InMemoryRepository.upsert_chunks. -/
def InMemoryRepository.upsert_chunks (repo : InMemoryRepository)
    (cs : List Chunk) : InMemoryRepository :=
  cs.foldl (fun r chunk =>
    { r with
      chunks := dictSet r.chunks chunk.id chunk
      chunks_by_doc :=
        let lst := (dictGet r.chunks_by_doc chunk.document_id).getD []
        dictSet r.chunks_by_doc chunk.document_id
          (if chunk.id ∈ lst then lst else lst ++ [chunk.id]) }) repo

/-- InMemoryRepository.upsert_embeddings. -/
def InMemoryRepository.upsert_embeddings (repo : InMemoryRepository)
    (embeds : List EmbeddingRecord) : InMemoryRepository :=
  embeds.foldl (fun r emb => { r with embeddings := dictSet r.embeddings emb.id emb }) repo

/-- repositories.dot. -/
def dot (a b : List ℚ) : ℚ := (List.zipWith (fun x y => x * y) a b).sum

/-- InMemoryRepository._is_allowed: default-allow when no ACL is configured,
otherwise case-insensitive membership of the viewer email in the allow-list. -/
def InMemoryRepository._is_allowed (repo : InMemoryRepository)
    (document_id email : PyStr) : Bool :=
  match dictGet repo.acls document_id with
  | none => true
  | some allowed => decide (pyLower email ∈ allowed.map pyLower)

/-- The `continue` condition of _iter_chunks for the ACL check: Python
``if viewer_email and not self._is_allowed(doc.id, viewer_email)`` — skipped both for
`None` and for an empty viewer string (both falsy). -/
def aclSkip (repo : InMemoryRepository) (viewer_email : Option PyStr)
    (doc : Document) : Bool :=
  match viewer_email with
  | none => false
  | some v => (!(v = [] : Bool)) && (!(repo._is_allowed doc.id v))

/-- The `continue` condition of _iter_chunks for the source filter: Python
``if filters.source and doc.source not in filters.source`` — a `None` or empty
source list is falsy and applies no filtering. -/
def srcSkip (filters : Option SearchFilters) (doc : Document) : Bool :=
  match filters with
  | none => false
  | some f => match f.source with
    | none => false
    | some srcs => (!(srcs = [] : Bool)) && (!(decide (doc.source ∈ srcs)))

/-- The `continue` condition of _iter_chunks for the project filter: Python
``if filters.project and doc.project not in filters.project``; a document with no
project never matches a non-empty project filter. -/
def projSkip (filters : Option SearchFilters) (doc : Document) : Bool :=
  match filters with
  | none => false
  | some f => match f.project with
    | none => false
    | some projs => (!(projs = [] : Bool)) &&
        (match doc.project with
         | none => true
         | some p => !(decide (p ∈ projs)))

/-- One iteration of the _iter_chunks loop body: yield the stored chunk unless its
document is missing or one of the `continue` conditions fires. -/
def iterChunkEntry (repo : InMemoryRepository) (filters : Option SearchFilters)
    (viewer_email : Option PyStr) (kv : PyStr × Chunk) : Option Chunk :=
  match dictGet repo.documents kv.2.document_id with
  | none => none
  | some doc =>
    if aclSkip repo viewer_email doc then none
    else if srcSkip filters doc then none
    else if projSkip filters doc then none
    else some kv.2

/-- InMemoryRepository._iter_chunks: every stored chunk whose document exists, passes
the ACL check for a truthy viewer email, and matches the (truthy) source/project
filters. -/
def InMemoryRepository._iter_chunks (repo : InMemoryRepository)
    (filters : Option SearchFilters) (viewer_email : Option PyStr) : List Chunk :=
  repo.chunks.filterMap (iterChunkEntry repo filters viewer_email)

/-- The propositional form of "the ACL check does not skip this document". -/
def aclPass (repo : InMemoryRepository) (viewer_email : Option PyStr)
    (doc : Document) : Prop :=
  match viewer_email with
  | none => True
  | some v => v = [] ∨ repo._is_allowed doc.id v = true

/-- The propositional form of "the source filter does not skip this document". -/
def srcPass (filters : Option SearchFilters) (doc : Document) : Prop :=
  match filters with
  | none => True
  | some f => match f.source with
    | none => True
    | some srcs => srcs = [] ∨ doc.source ∈ srcs

/-- The propositional form of "the project filter does not skip this document". -/
def projPass (filters : Option SearchFilters) (doc : Document) : Prop :=
  match filters with
  | none => True
  | some f => match f.project with
    | none => True
    | some projs => projs = [] ∨ ∃ p, doc.project = some p ∧ p ∈ projs

/-- The per-chunk lexical score: sum over lower-cased whitespace query tokens of the
number of substring occurrences in the lower-cased chunk text. -/
def chunkLexScore (query : PyStr) (chunk : Chunk) : Nat :=
  let tokens := ((pySplit query).filter (fun t => !(pyStrip t = [] : Bool))).map pyLower
  (tokens.map (fun tok => pyCount (pyLower chunk.text) tok)).sum

/-- InMemoryRepository._lexical_scores: a dict from chunk id to its (non-zero)
lexical score, in chunk enumeration order. -/
def InMemoryRepository._lexical_scores (repo : InMemoryRepository) (query : PyStr)
    (filters : Option SearchFilters) (viewer_email : Option PyStr) : List (PyStr × ℚ) :=
  (repo._iter_chunks filters viewer_email).foldl (fun scores chunk =>
    let score := chunkLexScore query chunk
    if score ≠ 0 then dictSet scores chunk.id (score : ℚ) else scores) []

/-- The stored embedding of a chunk, looked up under the key `"{chunk.id}:emb"`. -/
def chunkEmbedding (repo : InMemoryRepository) (chunk : Chunk) : Option EmbeddingRecord :=
  dictGet repo.embeddings (chunk.id ++ str ":emb")

/-- InMemoryRepository._vector_scores: a dict from chunk id to the (strictly
positive) dot product of the query embedding with the chunk's stored embedding, in
chunk enumeration order; chunks without a stored embedding are skipped.  The
embedding provider is passed in as `embed`. -/
def InMemoryRepository._vector_scores (embed : PyStr → List ℚ) (repo : InMemoryRepository)
    (query : PyStr) (filters : Option SearchFilters) (viewer_email : Option PyStr) :
    List (PyStr × ℚ) :=
  let query_vec := embed query
  (repo._iter_chunks filters viewer_email).foldl (fun scores chunk =>
    match chunkEmbedding repo chunk with
    | none => scores
    | some emb =>
      let score := dot query_vec emb.vector
      if 0 < score then dictSet scores chunk.id score else scores) []

/-- The fused score dict of InMemoryRepository.search: add every lexical entry, then
every vector entry, into a `defaultdict(float)`. -/
def combinedScores (embed : PyStr → List ℚ) (repo : InMemoryRepository) (query : PyStr)
    (filters : Option SearchFilters) (viewer_email : Option PyStr) : List (PyStr × ℚ) :=
  (repo._vector_scores embed query filters viewer_email).foldl
    (fun d kv => dictAdd d kv.1 kv.2)
    ((repo._lexical_scores query filters viewer_email).foldl
      (fun d kv => dictAdd d kv.1 kv.2) [])

/-- Construction of one ranked SearchResult from an `(index, (chunk_id, score))`
entry of the ranked list (`rank` is the 1-based index from `enumerate(..., start=1)`).
The two dict lookups always succeed for repository states built by the upsert methods
(Python would raise `KeyError` otherwise); the model yields `none` there. -/
def mkSearchResult (repo : InMemoryRepository) (p : Nat × (PyStr × ℚ)) :
    Option SearchResult :=
  match dictGet repo.chunks p.2.1 with
  | none => none
  | some chunk =>
    match dictGet repo.documents chunk.document_id with
    | none => none
    | some doc => some
      { id := chunk.id
        document_id := doc.id
        source := doc.source
        title := doc.title
        text := chunk.text
        score := p.2.2
        rank := p.1 + 1
        provenance :=
          { start_ms := chunk.start_ms
            end_ms := chunk.end_ms
            speaker := chunk.speaker
            workspace_id := doc.workspace_id
            project := doc.project } }

/-- InMemoryRepository.search: fuse the two score dicts, sort by score descending
(stable), truncate with Python slice semantics to `limit`, and build ranked results
with 1-based dense ranks. -/
def InMemoryRepository.search (embed : PyStr → List ℚ) (repo : InMemoryRepository)
    (query : PyStr) (filters : Option SearchFilters) (limit : Int)
    (viewer_email : Option PyStr) : List SearchResult :=
  let ranked := pythonTake limit (sortDesc (combinedScores embed repo query filters viewer_email))
  ranked.enum.filterMap (mkSearchResult repo)

/-! ## Search entry point (backend/app/search.py, backend/app/settings.py) -/

/-- settings.Settings (development defaults; only `rerank_enabled` is read by the
search path). -/
structure Settings where
  app_name : PyStr := str "Savas Unified Search POC"
  fathom_webhook_secret : PyStr := str "dev-fathom-secret"
  slack_signing_secret : PyStr := str "dev-slack-secret"
  openai_api_key : PyStr := str "dev-openai"
  queue_name : PyStr := str "fathom-ingest"
  signature_tolerance_seconds : Int := 300
  rerank_enabled : Bool := false

/-- The module-level `settings = Settings.load()`. -/
def settings : Settings := {}

/-- search.perform_search: no request validation; the rerank branch is a no-op. -/
def perform_search (embed : PyStr → List ℚ) (repo : InMemoryRepository)
    (request : SearchRequest) : List SearchResult :=
  let results := repo.search embed request.query request.filters request.limit
    request.viewer_email
  if request.rerank && settings.rerank_enabled then results else results

/-- Well-formedness facts that hold for every repository state Python can reach,
because `self.chunks` is a dict keyed by `chunk.id`: keys are distinct and each
stored chunk's `id` equals its key. -/
def ReposWF (repo : InMemoryRepository) : Prop :=
  ((repo.chunks.map Prod.fst).Nodup) ∧ ∀ p ∈ repo.chunks, (Prod.snd p).id = Prod.fst p

instance (repo : InMemoryRepository) : Decidable (ReposWF repo) := by
  unfold ReposWF; infer_instance

/-! ## Alerts (backend/app/alerts.py) -/

/-- alerts.AlertsService: the keyword rule table, set in `__init__`. -/
structure AlertsService where
  rules : List (PyStr × List PyStr)

/-- `AlertsService.__init__`: the fixed keyword catalog. -/
def AlertsService.init : AlertsService :=
  { rules :=
    [ (str "budget_risk",
        [str "budget", str "over budget", str "too expensive", str "cost overrun",
         str "scope creep", str "out of scope", str "change order", str "cannot afford"]),
      (str "schedule_risk",
        [str "slipping", str "behind schedule", str "delay", str "deadline",
         str "blocked", str "pushed back", str "need more time", str "not ready"]),
      (str "satisfaction_risk",
        [str "frustrated", str "unhappy", str "concerned", str "not working",
         str "quality issue", str "rework"]),
      (str "opportunity",
        [str "can you also", str "additional work", str "phase two", str "expansion",
         str "maintenance", str "support retainer", str "new project",
         str "integration", str "referral"]) ] }

/-- The per-chunk keyword score of a rule: total occurrence count of the rule's
keywords in the lower-cased chunk text. -/
def chunkKeywordScore (keywords : List PyStr) (chunk : Chunk) : Nat :=
  (keywords.map (fun k => pyCount (pyLower chunk.text) k)).sum

/-- The inner loop of AlertsService.score: the running `(best_chunk, best_score)`
pair, updated only on a strictly larger score. -/
def bestPair (keywords : List PyStr) (chunks : List Chunk) : Option Chunk × ℚ :=
  chunks.foldl (fun acc chunk =>
    if acc.2 < (chunkKeywordScore keywords chunk : ℚ)
    then (some chunk, (chunkKeywordScore keywords chunk : ℚ)) else acc)
    ((none : Option Chunk), (0 : ℚ))

/-- One iteration of the rule loop of AlertsService.score: the Alert the rule emits,
if any (`if best_score > 0 and best_chunk`). -/
def ruleAlert (candidate : AlertCandidate) (rule : PyStr × List PyStr) : Option Alert :=
  match bestPair rule.2 candidate.chunks with
  | (some best_chunk, best_score) =>
    if 0 < best_score then
      some
        { alert_type := rule.1
          call_id := candidate.call_id
          title := candidate.title
          project := candidate.project
          workspace_id := candidate.workspace_id
          chunks := [{ text := best_chunk.text, speaker := best_chunk.speaker,
                       start_ms := best_chunk.start_ms }]
          score := best_score }
    else none
  | (none, _) => none

/-- AlertsService.score: one pass over the rule table, appending at most one Alert
per rule. -/
def AlertsService.score (svc : AlertsService) (candidate : AlertCandidate) : List Alert :=
  svc.rules.foldl (fun alerts rule => alerts ++ (ruleAlert candidate rule).toList) []

/-- The batch-total score a rule would have if it summed keyword occurrences over
every chunk of the candidate (what the claim asserts the Alert score to be). -/
def totalRuleScore (keywords : List PyStr) (chunks : List Chunk) : Nat :=
  (chunks.map (fun c => chunkKeywordScore keywords c)).sum

/-! ## Signal detector (src/savas_kb/models.py, src/savas_kb/alerts/detector.py) -/

/-- models.SourceType. -/
inductive SourceType where
  | SLACK | FATHOM | DRIVE | TEAMWORK | GITHUB | HARVEST
deriving DecidableEq

/-- models.SignalType; `value` below is the lower-case string value of each member. -/
inductive SignalType where
  | RISK_BUDGET | RISK_SCHEDULE | RISK_SCOPE | RISK_SENTIMENT
  | OPPORTUNITY_ADDITIONAL_WORK | OPPORTUNITY_REFERRAL | OPPORTUNITY_EXPANSION
deriving DecidableEq

/-- The `.value` of each SignalType member (a lower-case string, as in the source). -/
def SignalType.value : SignalType → PyStr
  | .RISK_BUDGET => str "risk_budget"
  | .RISK_SCHEDULE => str "risk_schedule"
  | .RISK_SCOPE => str "risk_scope"
  | .RISK_SENTIMENT => str "risk_sentiment"
  | .OPPORTUNITY_ADDITIONAL_WORK => str "opportunity_additional_work"
  | .OPPORTUNITY_REFERRAL => str "opportunity_referral"
  | .OPPORTUNITY_EXPANSION => str "opportunity_expansion"

/-- models.Chunk of the savas_kb package. -/
structure KbChunk where
  id : PyStr
  content : PyStr
  source_type : SourceType
  source_id : PyStr
  source_url : Option PyStr := none
  timestamp : Int := 0
  author : Option PyStr := none
  participants : List PyStr := []
  project : Option PyStr := none
  client : Option PyStr := none
  channel : Option PyStr := none
  thread_id : Option PyStr := none
  parent_id : Option PyStr := none
deriving DecidableEq

/-- models.Alert of the savas_kb package (`detected_at` is wall-clock in Python and
omitted; `id` is a fresh UUID, passed in as `newId` by the model). -/
structure KbAlert where
  id : PyStr
  signal_type : SignalType
  severity : PyStr
  title : PyStr
  summary : PyStr
  quote : PyStr
  source_chunk : KbChunk
  posted_to_slack : Bool := false
deriving DecidableEq

/-- detector.AlertDetector._create_alert in keyword-only mode (`use_llm = False`, as
exercised by the test suite; with the LLM enabled only `summary` differs, coming from
an external model call).  `newId` stands for the fresh `uuid4` prefix. -/
def _create_alert (newId : PyStr) (chunk : KbChunk) (signal_type : SignalType) : KbAlert :=
  let severity :=
    if pyInStr (str "RISK") signal_type.value then
      (if pyInStr (str "BUDGET") signal_type.value then str "high" else str "medium")
    else str "medium"
  let quote := chunk.content.take 200 ++
    (if 200 < chunk.content.length then str "..." else [])
  let titles : List (SignalType × PyStr) :=
    [ (SignalType.RISK_BUDGET, str "Budget Concern Detected"),
      (SignalType.RISK_SCHEDULE, str "Schedule Risk Detected"),
      (SignalType.RISK_SCOPE, str "Scope Creep Detected"),
      (SignalType.RISK_SENTIMENT, str "Client Sentiment Concern"),
      (SignalType.OPPORTUNITY_ADDITIONAL_WORK, str "Additional Work Opportunity"),
      (SignalType.OPPORTUNITY_REFERRAL, str "Referral Opportunity"),
      (SignalType.OPPORTUNITY_EXPANSION, str "Expansion Opportunity") ]
  let title := ((titles.find? (fun p => decide (p.1 = signal_type))).map (fun p => p.2)).getD
    (str "Signal: " ++ signal_type.value)
  let summary := quote
  { id := newId
    signal_type := signal_type
    severity := severity
    title := title
    summary := summary
    quote := quote
    source_chunk := chunk }

/-! ## Concrete fixtures used by witnesses and counterexamples -/

/-- A constant embedding provider mapping every text to the one-dimensional vector
`[1]`; a legal provider under the spec's interface (pure, L2-normalized). -/
def embedOne : PyStr → List ℚ := fun _ => [(1 : ℚ)]

/-- Fixture document `d`. -/
def docD : Document :=
  { id := str "d", source := str "slack", external_id := str "d" }

/-- Fixture chunk `a`: matches the fixture query only through its embedding. -/
def chunkA : Chunk :=
  { id := str "a", document_id := str "d", idx := 0, text := str "hello there", token_count := 2 }

/-- Fixture chunk `b`: matches the fixture query `"zz"` only lexically. -/
def chunkB : Chunk :=
  { id := str "b", document_id := str "d", idx := 1, text := str "zz", token_count := 1 }

/-- Stored embedding for chunk `a` with dot product 1 against `embedOne` queries. -/
def embA : EmbeddingRecord :=
  { id := str "a" ++ str ":emb", chunk_id := str "a", model := str "stub-embedding",
    vector := [(1 : ℚ)] }

/-- Fixture repository: document `d` with chunks `a` (enumerated first) and `b`,
and an embedding only for `a`; built through the upsert methods. -/
def repoTie : InMemoryRepository :=
  ((InMemoryRepository.init.upsert_document docD none).upsert_chunks
    [chunkA, chunkB]).upsert_embeddings [embA]

/-- The claim's tie-break rule as a decidable predicate over a result list: any two
results with equal fused score appear in the first-seen order of the given chunk
enumeration. -/
def RespectsFirstSeenTies (results : List SearchResult) (enumIds : List PyStr) : Prop :=
  ∀ i j : Fin results.length, i.val < j.val →
    (results.get i).score = (results.get j).score →
    enumIds.indexOf (results.get i).id < enumIds.indexOf (results.get j).id

instance (results : List SearchResult) (enumIds : List PyStr) :
    Decidable (RespectsFirstSeenTies results enumIds) := by
  unfold RespectsFirstSeenTies; infer_instance

/-- The C5 claim as a decidable predicate: every chunk's text fits in `T` unless its
buffer contains exactly one oversized segment. -/
def ChunkLengthClaim (segs : List TranscriptSegment) (doc : PyStr) (T O : Nat) : Prop :=
  ∀ p ∈ (chunkBuffersLoop T O segs []).enum,
    (_flush p.2 doc p.1).text.length ≤ T ∨
      p.2.countP (fun s => decide (T < s.text.length)) = 1

instance (segs : List TranscriptSegment) (doc : PyStr) (T O : Nat) :
    Decidable (ChunkLengthClaim segs doc T O) := by
  unfold ChunkLengthClaim; infer_instance

/-- Fixture chunks for the alerts claim: two sibling chunks, each containing the
keyword `"budget"` exactly once. -/
def candC8 : AlertCandidate :=
  { call_id := str "call_x"
    document_id := str "d"
    chunks :=
      [ { id := str "c1", document_id := str "d", idx := 0,
          text := str "budget", token_count := 1 },
        { id := str "c2", document_id := str "d", idx := 1,
          text := str "budget", token_count := 1 } ] }

/-- Fixture repository with a one-entry allow-list on document `d`. -/
def repoAcl : InMemoryRepository :=
  InMemoryRepository.init.upsert_document docD (some [str "A@x.com"])

/-- Fixture repository whose document `d` has a configured but empty allow-list. -/
def repoEmptyAcl : InMemoryRepository :=
  InMemoryRepository.init.upsert_document docD (some [])

/-- Fixture chunk for the detector claim. -/
def kbChunk9 : KbChunk :=
  { id := str "k1", content := str "the client has budget concerns",
    source_type := SourceType.FATHOM, source_id := str "m1" }

-- === end of definitions; all theorems follow ===

/-! ## Chunker lemmas -/

theorem nat_mem_le_sum : ∀ (l : List Nat) (a : Nat), a ∈ l → a ≤ l.sum := by
  intro l
  induction l with
  | nil => intro a ha; cases ha
  | cons x xs ih =>
    intro a ha
    simp only [List.sum_cons]
    rcases List.mem_cons.mp ha with h | h
    · subst h; exact Nat.le_add_right _ _
    · have := ih a h; omega

theorem pyStrip_length_le (s : PyStr) : (pyStrip s).length ≤ s.length := by
  have h1 : ((s.dropWhile Char.isWhitespace).reverse.dropWhile Char.isWhitespace).length
      ≤ (s.dropWhile Char.isWhitespace).reverse.length :=
    (List.dropWhile_sublist _).length_le
  have h2 : (s.dropWhile Char.isWhitespace).length ≤ s.length :=
    (List.dropWhile_sublist _).length_le
  simp only [pyStrip, List.length_reverse] at *
  omega

theorem pyJoin_cons_cons (sep x y : PyStr) (rest : List PyStr) :
    pyJoin sep (x :: y :: rest) = x ++ sep ++ pyJoin sep (y :: rest) := rfl

theorem pyJoin_length (sep : PyStr) : ∀ (x : PyStr) (parts : List PyStr),
    (pyJoin sep (x :: parts)).length
      = ((x :: parts).map List.length).sum + sep.length * parts.length := by
  intro x parts
  induction parts generalizing x with
  | nil => simp [pyJoin]
  | cons y rest ih =>
    rw [pyJoin_cons_cons]
    have hy := ih y
    simp only [List.length_append, List.map_cons, List.sum_cons, List.length_cons,
      Nat.mul_succ] at *
    omega

theorem pyJoin_ne_nil (sep : PyStr) (parts : List PyStr) (x : PyStr)
    (hx : x ∈ parts) (hne : x ≠ []) : pyJoin sep parts ≠ [] := by
  match parts, hx with
  | p :: ps, hx =>
    have hlen := pyJoin_length sep p ps
    have hmem : x.length ∈ ((p :: ps).map List.length) := List.mem_map_of_mem _ hx
    have hle : x.length ≤ ((p :: ps).map List.length).sum := nat_mem_le_sum _ _ hmem
    have hpos : 0 < x.length := List.length_pos.mpr hne
    intro hcon
    have hzero : (pyJoin sep (p :: ps)).length = 0 := by rw [hcon]; rfl
    omega

theorem takeLastChars_length_le (n : Nat) (s : PyStr) : (takeLastChars n s).length ≤ n := by
  simp only [takeLastChars, List.length_drop]
  omega

theorem segSum_append (b : List TranscriptSegment) (s : TranscriptSegment) :
    segSum (b ++ [s]) = segSum b + s.text.length := by
  simp [segSum]

/-- Invariant of the chunker loop: every emitted buffer is a legal flushed buffer. -/
theorem chunkBuffersLoop_inv (T O : Nat) :
    ∀ (segs buffer : List TranscriptSegment),
      (buffer = [] ∨ FlushedBufferOK T O buffer) →
      ∀ b ∈ chunkBuffersLoop T O segs buffer, FlushedBufferOK T O b := by
  intro segs
  induction segs with
  | nil =>
    intro buffer hbuf b hb
    simp only [chunkBuffersLoop] at hb
    by_cases hbe : buffer = []
    · rw [if_pos hbe] at hb; cases hb
    · rw [if_neg hbe] at hb
      have hb' := List.mem_singleton.mp hb
      subst hb'
      rcases hbuf with h | h
      · exact absurd h hbe
      · exact h
  | cons seg rest ih =>
    intro buffer hbuf b hb
    simp only [chunkBuffersLoop] at hb
    by_cases hblank : pyStrip seg.text = []
    · rw [if_pos hblank] at hb
      exact ih buffer hbuf b hb
    · rw [if_neg hblank] at hb
      by_cases hguard : T < segSum buffer + seg.text.length ∧ buffer ≠ []
      · rw [dif_pos hguard] at hb
        rcases List.mem_cons.mp hb with h | h
        · subst h
          rcases hbuf with h0 | h0
          · exact absurd h0 hguard.2
          · exact h0
        · refine ih _ (Or.inr ?_) b h
          by_cases ho : O = 0
          · rw [if_pos ho]
            exact Or.inr (Or.inl rfl)
          · rw [if_neg ho]
            exact Or.inr (Or.inr ⟨rfl,
              ⟨overlapSeed (buffer.getLast hguard.2) O, rfl, takeLastChars_length_le O _⟩⟩)
      · rw [dif_neg hguard] at hb
        refine ih _ (Or.inr ?_) b hb
        by_cases hbe : buffer = []
        · subst hbe
          exact Or.inr (Or.inl rfl)
        · have hsum : segSum buffer + seg.text.length ≤ T := by
            rcases Nat.lt_or_ge T (segSum buffer + seg.text.length) with h | h
            · exact absurd ⟨h, hbe⟩ hguard
            · exact h
          exact Or.inl (by rw [segSum_append]; exact hsum)

/-- Invariant of the chunker loop: every emitted buffer is non-empty and contains a
non-blank segment. -/
theorem chunkBuffersLoop_content (T O : Nat) :
    ∀ (segs buffer : List TranscriptSegment),
      (buffer = [] ∨ (buffer ≠ [] ∧ BufferHasContent buffer)) →
      ∀ b ∈ chunkBuffersLoop T O segs buffer, b ≠ [] ∧ BufferHasContent b := by
  intro segs
  induction segs with
  | nil =>
    intro buffer hbuf b hb
    simp only [chunkBuffersLoop] at hb
    by_cases hbe : buffer = []
    · rw [if_pos hbe] at hb; cases hb
    · rw [if_neg hbe] at hb
      have hb' := List.mem_singleton.mp hb
      subst hb'
      rcases hbuf with h | h
      · exact absurd h hbe
      · exact h
  | cons seg rest ih =>
    intro buffer hbuf b hb
    simp only [chunkBuffersLoop] at hb
    by_cases hblank : pyStrip seg.text = []
    · rw [if_pos hblank] at hb
      exact ih buffer hbuf b hb
    · rw [if_neg hblank] at hb
      by_cases hguard : T < segSum buffer + seg.text.length ∧ buffer ≠ []
      · rw [dif_pos hguard] at hb
        rcases List.mem_cons.mp hb with h | h
        · subst h
          rcases hbuf with h0 | h0
          · exact absurd h0 hguard.2
          · exact h0
        · exact ih _ (Or.inr ⟨by simp, ⟨seg, by simp, hblank⟩⟩) b h
      · rw [dif_neg hguard] at hb
        exact ih _ (Or.inr ⟨by simp, ⟨seg, by simp, hblank⟩⟩) b hb

/-- The chunker loop emits at least one buffer whenever the incoming buffer is
non-empty or some remaining segment is non-blank (model of: "a final partially
filled buffer is always flushed"). -/
theorem chunkBuffersLoop_ne_nil (T O : Nat) :
    ∀ (segs buffer : List TranscriptSegment),
      (buffer ≠ [] ∨ ∃ s ∈ segs, pyStrip s.text ≠ []) →
      chunkBuffersLoop T O segs buffer ≠ [] := by
  intro segs
  induction segs with
  | nil =>
    intro buffer h
    rcases h with h | h
    · simp only [chunkBuffersLoop]
      rw [if_neg h]
      simp
    · obtain ⟨s, hs, _⟩ := h; cases hs
  | cons seg rest ih =>
    intro buffer h
    simp only [chunkBuffersLoop]
    by_cases hblank : pyStrip seg.text = []
    · rw [if_pos hblank]
      refine ih buffer ?_
      rcases h with h | h
      · exact Or.inl h
      · obtain ⟨s, hs, hc⟩ := h
        rcases List.mem_cons.mp hs with rfl | hs'
        · exact absurd hblank hc
        · exact Or.inr ⟨s, hs', hc⟩
    · rw [if_neg hblank]
      by_cases hguard : T < segSum buffer + seg.text.length ∧ buffer ≠ []
      · rw [dif_pos hguard]; simp
      · rw [dif_neg hguard]
        exact ih _ (Or.inl (by simp))

theorem chunkBuffersLoop_all_blank (T O : Nat) :
    ∀ (segs buffer : List TranscriptSegment),
      (∀ s ∈ segs, pyStrip s.text = []) →
      chunkBuffersLoop T O segs buffer = if buffer = [] then [] else [buffer] := by
  intro segs
  induction segs with
  | nil => intro buffer _; simp [chunkBuffersLoop]
  | cons seg rest ih =>
    intro buffer hall
    have hblank : pyStrip seg.text = [] := hall seg (by simp)
    simp only [chunkBuffersLoop]
    rw [if_pos hblank]
    exact ih buffer (fun s hs => hall s (by simp [hs]))

/-- Once a segment is in the buffer, it ends up in some emitted buffer. -/
theorem chunkBuffersLoop_mem_buffer (T O : Nat) :
    ∀ (segs buffer : List TranscriptSegment) (x : TranscriptSegment),
      x ∈ buffer → ∃ b ∈ chunkBuffersLoop T O segs buffer, x ∈ b := by
  intro segs
  induction segs with
  | nil =>
    intro buffer x hx
    have hne : buffer ≠ [] := List.ne_nil_of_mem hx
    simp only [chunkBuffersLoop]
    rw [if_neg hne]
    exact ⟨buffer, by simp, hx⟩
  | cons seg rest ih =>
    intro buffer x hx
    simp only [chunkBuffersLoop]
    by_cases hblank : pyStrip seg.text = []
    · rw [if_pos hblank]
      exact ih buffer x hx
    · rw [if_neg hblank]
      by_cases hguard : T < segSum buffer + seg.text.length ∧ buffer ≠ []
      · rw [dif_pos hguard]
        exact ⟨buffer, by simp, hx⟩
      · rw [dif_neg hguard]
        exact ih (buffer ++ [seg]) x (by simp [hx])

/-- Every non-blank input segment ends up in some emitted buffer. -/
theorem chunkBuffersLoop_mem_seg (T O : Nat) :
    ∀ (segs buffer : List TranscriptSegment) (s : TranscriptSegment),
      s ∈ segs → pyStrip s.text ≠ [] →
      ∃ b ∈ chunkBuffersLoop T O segs buffer, s ∈ b := by
  intro segs
  induction segs with
  | nil => intro _ s hs _; cases hs
  | cons seg rest ih =>
    intro buffer s hs hc
    simp only [chunkBuffersLoop]
    rcases List.mem_cons.mp hs with rfl | hs'
    · rw [if_neg hc]
      by_cases hguard : T < segSum buffer + s.text.length ∧ buffer ≠ []
      · rw [dif_pos hguard]
        obtain ⟨b, hb, hsb⟩ := chunkBuffersLoop_mem_buffer T O rest
          ((if O = 0 then [] else [overlapSeed (buffer.getLast hguard.2) O]) ++ [s]) s (by simp)
        exact ⟨b, List.mem_cons_of_mem _ hb, hsb⟩
      · rw [dif_neg hguard]
        exact chunkBuffersLoop_mem_buffer T O rest (buffer ++ [s]) s (by simp)
    · by_cases hblank : pyStrip seg.text = []
      · rw [if_pos hblank]
        exact ih buffer s hs' hc
      · rw [if_neg hblank]
        by_cases hguard : T < segSum buffer + seg.text.length ∧ buffer ≠ []
        · rw [dif_pos hguard]
          obtain ⟨b, hb, hsb⟩ := ih
            ((if O = 0 then [] else [overlapSeed (buffer.getLast hguard.2) O]) ++ [seg]) s hs' hc
          exact ⟨b, List.mem_cons_of_mem _ hb, hsb⟩
        · rw [dif_neg hguard]
          exact ih (buffer ++ [seg]) s hs' hc

theorem _flush_text_length (buffer : List TranscriptSegment) (doc : PyStr) (idx : Nat)
    (hne : buffer ≠ []) :
    (_flush buffer doc idx).text.length + 1 ≤ segSum buffer + buffer.length := by
  obtain ⟨x, xs, rfl⟩ := List.exists_cons_of_ne_nil hne
  have htext : (_flush (x :: xs) doc idx).text
      = pyJoin (str " ") ((x :: xs).map (fun s => pyStrip s.text)) := rfl
  have hj := pyJoin_length (str " ") (pyStrip x.text) (xs.map (fun s => pyStrip s.text))
  have hsep : (str " ").length = 1 := rfl
  have hsum : (((x :: xs).map (fun s => pyStrip s.text)).map List.length).sum
      ≤ segSum (x :: xs) := by
    simp only [segSum, List.map_map]
    exact List.sum_le_sum (fun s _ => pyStrip_length_le s.text)
  rw [htext, List.map_cons, hj, hsep, Nat.one_mul]
  rw [List.map_cons] at hsum
  have hlm : (xs.map (fun s => pyStrip s.text)).length = xs.length := List.length_map _ _
  have hlc : (x :: xs).length = xs.length + 1 := rfl
  omega

theorem _flush_text_ne_nil (buffer : List TranscriptSegment) (doc : PyStr) (idx : Nat)
    (h : BufferHasContent buffer) : (_flush buffer doc idx).text ≠ [] := by
  obtain ⟨s, hs, hc⟩ := h
  exact pyJoin_ne_nil _ _ (pyStrip s.text) (List.mem_map_of_mem _ hs) hc


/-! ## Claim C5 -/

/-- C5 (counterexample): with `T = 4`, `O = 0` and segments `"aa" "bb" "cc"` the first
chunk has text `"aa bb"` of length 5 > 4 while containing no oversized segment (the
single space inserted by the join pushes it over the target), so it is false that
every chunk's text length is ≤ T unless the chunk contains exactly one oversized
segment. -/
theorem chunk_length_claim_counterexample :
    ¬ ChunkLengthClaim [mkSeg "aa", mkSeg "bb", mkSeg "cc"] (str "d") 4 0 := by decide

/-- C5 (amended): chunks are flushed buffers; every flushed buffer either has
accumulated raw length ≤ T, or is a single (possibly oversized) segment, or is an
overlap seed (≤ O characters) followed by the one segment appended right after a
flush; and a chunk's text length is below the buffer's raw length plus one join
separator per additional segment.  A chunk is still closed only when adding the next
segment would push the accumulated raw length over T and the buffer is non-empty. -/
theorem chunk_text_length_bound (segs : List TranscriptSegment) (doc : PyStr)
    (T O : Nat) (hO : O < T) :
    chunk_segments segs doc T O
        = ((chunkBuffersLoop T O segs []).enum).map (fun p => _flush p.2 doc p.1) ∧
    ∀ b ∈ chunkBuffersLoop T O segs [], ∀ idx : Nat,
      ((_flush b doc idx).text.length + 1 ≤ segSum b + b.length) ∧
      (segSum b ≤ T ∨ b.length = 1 ∨
        (b.length = 2 ∧ ∃ s, b.head? = some s ∧ s.text.length ≤ O)) := by
  refine ⟨rfl, ?_⟩
  intro b hb idx
  have hok := chunkBuffersLoop_inv T O segs [] (Or.inl rfl) b hb
  have hne : b ≠ [] := (chunkBuffersLoop_content T O segs [] (Or.inl rfl) b hb).1
  exact ⟨_flush_text_length b doc idx hne, hok⟩

/-- Witness: the amended C5 bound evaluated on the one-buffer input `["aa"]` with
`T = 4`, `O = 0`. -/
theorem chunk_text_length_bound_witness :
    ((_flush [mkSeg "aa"] (str "d") 0).text.length + 1
        ≤ segSum [mkSeg "aa"] + ([mkSeg "aa"] : List TranscriptSegment).length) ∧
    (segSum [mkSeg "aa"] ≤ 4 ∨ ([mkSeg "aa"] : List TranscriptSegment).length = 1 ∨
      (([mkSeg "aa"] : List TranscriptSegment).length = 2 ∧
        ∃ s, ([mkSeg "aa"] : List TranscriptSegment).head? = some s ∧ s.text.length ≤ 0)) :=
  (chunk_text_length_bound [mkSeg "aa"] (str "d") 4 0 (by decide)).2
    [mkSeg "aa"] (by decide) 0

/-! ## Claim C6 -/

/-- C6: chunk sequence indices are exactly `0, 1, 2, ...` (strictly increasing from
0, incremented once per emitted chunk); no chunk's text is empty; the output is empty
iff every input segment is blank (so an input with no non-blank segment yields zero
chunks, and any pending content is flushed as a final chunk); moreover every
non-blank segment ends up in some flushed buffer. -/
theorem chunker_invariants (segs : List TranscriptSegment) (doc : PyStr) (T O : Nat) :
    ((chunk_segments segs doc T O).map (fun c => c.idx)
        = List.range (chunk_segments segs doc T O).length) ∧
    (∀ c ∈ chunk_segments segs doc T O, c.text ≠ []) ∧
    ((chunk_segments segs doc T O = []) ↔ ∀ s ∈ segs, pyStrip s.text = []) ∧
    (∀ s ∈ segs, pyStrip s.text ≠ [] → ∃ b ∈ chunkBuffersLoop T O segs [], s ∈ b) := by
  refine ⟨?_, ?_, ⟨?_, ?_⟩, ?_⟩
  · have h1 : (chunk_segments segs doc T O).map (fun c => c.idx)
        = ((chunkBuffersLoop T O segs []).enum).map Prod.fst := by
      simp only [chunk_segments, List.map_map]
      rfl
    have h2 : (chunk_segments segs doc T O).length
        = (chunkBuffersLoop T O segs []).length := by
      simp [chunk_segments]
    rw [h1, h2, List.enum_map_fst]
  · intro c hc
    obtain ⟨p, hp, hpc⟩ := List.mem_map.mp hc
    have hb : p.2 ∈ chunkBuffersLoop T O segs [] := by
      have := List.mem_map_of_mem Prod.snd hp
      rwa [List.enum_map_snd] at this
    have hcontent := (chunkBuffersLoop_content T O segs [] (Or.inl rfl) p.2 hb).2
    rw [← hpc]
    exact _flush_text_ne_nil p.2 doc p.1 hcontent
  · intro hnil s hs
    by_contra hc
    have hne := chunkBuffersLoop_ne_nil T O segs [] (Or.inr ⟨s, hs, hc⟩)
    have : chunk_segments segs doc T O ≠ [] := by
      simp only [chunk_segments]
      intro h
      exact hne (by simpa [List.enum_eq_nil] using List.map_eq_nil_iff.mp h)
    exact this hnil
  · intro hall
    simp only [chunk_segments, chunkBuffersLoop_all_blank T O segs [] hall]
    rfl
  · intro s hs hc
    exact chunkBuffersLoop_mem_seg T O segs [] s hs hc

/-- Witness: the C6 invariants evaluated on the input `["aa"]` with `T = 4`,
`O = 0`. -/
theorem chunker_invariants_witness :
    (_flush [mkSeg "aa"] (str "d") 0) ∈ chunk_segments [mkSeg "aa"] (str "d") 4 0 ∧
    (_flush [mkSeg "aa"] (str "d") 0).text ≠ [] :=
  ⟨by decide, (chunker_invariants [mkSeg "aa"] (str "d") 4 0).2.1 _ (by decide)⟩

/-! ## Claim C7 -/

/-- C7 (counterexample): chunking `["aa", "aa"]` with `T = 2`, `O = 0` for one
document yields two chunks with identical text (hence identical
`(source_kind, source_id, content)`) but different ids `d:0` and `d:1`, so the chunk
identifier is not derived from `(source_kind, source_id, content)` — it is positional. -/
theorem chunk_id_content_counterexample :
    ¬ (∀ c1 ∈ chunk_segments [mkSeg "aa", mkSeg "aa"] (str "d") 2 0,
        ∀ c2 ∈ chunk_segments [mkSeg "aa", mkSeg "aa"] (str "d") 2 0,
          c1.text = c2.text → c1.id = c2.id) := by decide

/-- C7 (amended): chunk ids are deterministic but positional — the id list is exactly
`"{document_id}:{i}"` for `i = 0, 1, ...`, a pure function of the document id and the
emitted-chunk count, so chunking identical input twice yields identical ids and an
identical chunk count, while identical content does not determine the id. -/
theorem chunk_id_positional (segs : List TranscriptSegment) (doc : PyStr) (T O : Nat) :
    ((chunk_segments segs doc T O).map (fun c => c.id)
        = (List.range (chunk_segments segs doc T O).length).map
            (fun i => doc ++ ':' :: (Nat.repr i).data)) ∧
    chunk_segments segs doc T O = chunk_segments segs doc T O := by
  refine ⟨?_, rfl⟩
  have h1 : (chunk_segments segs doc T O).map (fun c => c.id)
      = (((chunkBuffersLoop T O segs []).enum).map Prod.fst).map
          (fun i => doc ++ ':' :: (Nat.repr i).data) := by
    simp only [chunk_segments, List.map_map]
    rfl
  have h2 : (chunk_segments segs doc T O).length
      = (chunkBuffersLoop T O segs []).length := by
    simp [chunk_segments]
  rw [h1, h2, List.enum_map_fst]

/-- Witness: the amended C7 id shape evaluated on the two-chunk input used by the
counterexample. -/
theorem chunk_id_positional_witness :
    (chunk_segments [mkSeg "aa", mkSeg "aa"] (str "d") 2 0).map (fun c => c.id)
      = (List.range (chunk_segments [mkSeg "aa", mkSeg "aa"] (str "d") 2 0).length).map
          (fun i => str "d" ++ ':' :: (Nat.repr i).data) :=
  (chunk_id_positional [mkSeg "aa", mkSeg "aa"] (str "d") 2 0).1


/-! ## Dict lemmas -/

theorem dictGet_cons (k0 : PyStr) (v0 : α) (rest : List (PyStr × α)) (k : PyStr) :
    dictGet ((k0, v0) :: rest) k = if k0 = k then some v0 else dictGet rest k := by
  by_cases h : k0 = k
  · simp only [dictGet, if_pos h]
    rw [List.find?_cons_of_pos _ (by simpa using h)]
    rfl
  · simp only [dictGet, if_neg h]
    rw [List.find?_cons_of_neg _ (by simpa using h)]

theorem hasKey_cons (k0 : PyStr) (v0 : α) (rest : List (PyStr × α)) (k : PyStr) :
    hasKey ((k0, v0) :: rest) k = (decide (k0 = k) || hasKey rest k) := by
  by_cases h : k0 = k <;> simp [hasKey, dictGet_cons, h]

theorem hasKey_iff (d : List (PyStr × α)) (k : PyStr) :
    hasKey d k = true ↔ k ∈ d.map Prod.fst := by
  induction d with
  | nil =>
    constructor
    · intro h
      have hfalse : hasKey ([] : List (PyStr × α)) k = false := rfl
      rw [hfalse] at h
      cases h
    · intro h
      exact absurd h (List.not_mem_nil k)
  | cons kv rest ih =>
    rcases kv with ⟨k0, v0⟩
    rw [hasKey_cons, List.map_cons, List.mem_cons]
    by_cases h : k0 = k
    · rw [decide_eq_true h, Bool.true_or]
      exact ⟨fun _ => Or.inl h.symm, fun _ => rfl⟩
    · rw [decide_eq_false h, Bool.false_or, ih]
      constructor
      · exact fun hm => Or.inr hm
      · intro hor
        exact hor.resolve_left (fun he => absurd he.symm h)

theorem hasKey_append (d1 d2 : List (PyStr × α)) (k : PyStr) :
    hasKey (d1 ++ d2) k = (hasKey d1 k || hasKey d2 k) := by
  rw [Bool.eq_iff_iff]
  simp only [Bool.or_eq_true, hasKey_iff, List.map_append, List.mem_append]

theorem dictGet_eq_none_of_not_mem (d : List (PyStr × α)) (k : PyStr)
    (h : k ∉ d.map Prod.fst) : dictGet d k = none := by
  induction d with
  | nil => rfl
  | cons kv rest ih =>
    rcases kv with ⟨k0, v0⟩
    simp only [List.map_cons, List.mem_cons, not_or] at h
    rw [dictGet_cons, if_neg (fun hc => h.1 hc.symm)]
    exact ih h.2

theorem dictGet_of_mem_nodup (d : List (PyStr × α)) (k : PyStr) (v : α)
    (hnd : (d.map Prod.fst).Nodup) (h : (k, v) ∈ d) : dictGet d k = some v := by
  induction d with
  | nil => cases h
  | cons kv rest ih =>
    rcases kv with ⟨k0, v0⟩
    simp only [List.map_cons, List.nodup_cons] at hnd
    rcases List.mem_cons.mp h with heq | hmem
    · injection heq with h1 h2
      subst h1
      subst h2
      rw [dictGet_cons, if_pos rfl]
    · have hk : k0 ≠ k := by
        intro hk
        subst hk
        exact hnd.1 (List.mem_map_of_mem Prod.fst hmem)
      rw [dictGet_cons, if_neg hk]
      exact ih hnd.2 hmem

theorem valLookup_nil (k : PyStr) : valLookup [] k = 0 := rfl

theorem valLookup_cons (k0 : PyStr) (v0 : ℚ) (rest : List (PyStr × ℚ)) (k : PyStr) :
    valLookup ((k0, v0) :: rest) k = if k0 = k then v0 else valLookup rest k := by
  by_cases h : k0 = k <;> simp [valLookup, dictGet_cons, h]

theorem valLookup_not_hasKey (d : List (PyStr × ℚ)) (k : PyStr)
    (h : hasKey d k = false) : valLookup d k = 0 := by
  cases hd : dictGet d k with
  | none => simp [valLookup, hd]
  | some v => exfalso; simp [hasKey, hd] at h

theorem dictSet_not_hasKey (d : List (PyStr × α)) (k : PyStr) (v : α)
    (h : hasKey d k = false) : dictSet d k v = d ++ [(k, v)] := by
  induction d with
  | nil => rfl
  | cons kv rest ih =>
    rcases kv with ⟨k0, v0⟩
    rw [hasKey_cons] at h
    have h0 : k0 ≠ k := by
      intro hk; simp [hk] at h
    simp only [dictSet, if_neg h0, List.cons_append]
    rw [ih (by simp only [Bool.or_eq_false_iff] at h; exact h.2)]

theorem dictAdd_not_hasKey (d : List (PyStr × ℚ)) (k : PyStr) (v : ℚ)
    (h : hasKey d k = false) : dictAdd d k v = d ++ [(k, v)] := by
  induction d with
  | nil => rfl
  | cons kv rest ih =>
    rcases kv with ⟨k0, v0⟩
    rw [hasKey_cons] at h
    have h0 : k0 ≠ k := by
      intro hk; simp [hk] at h
    simp only [dictAdd, if_neg h0, List.cons_append]
    rw [ih (by simp only [Bool.or_eq_false_iff] at h; exact h.2)]

theorem dictAdd_cons_self (k0 : PyStr) (v0 v : ℚ) (rest : List (PyStr × ℚ)) :
    dictAdd ((k0, v0) :: rest) k0 v = (k0, v0 + v) :: rest := by
  simp [dictAdd]

theorem dictAdd_cons_ne (k1 k0 : PyStr) (v1 v : ℚ) (rest : List (PyStr × ℚ))
    (h : k1 ≠ k0) : dictAdd ((k1, v1) :: rest) k0 v = (k1, v1) :: dictAdd rest k0 v := by
  simp [dictAdd, h]

theorem valLookup_dictAdd (d : List (PyStr × ℚ)) (k0 : PyStr) (v : ℚ) (k : PyStr) :
    valLookup (dictAdd d k0 v) k = valLookup d k + (if k0 = k then v else 0) := by
  induction d with
  | nil =>
    by_cases h : k0 = k <;> simp [dictAdd, valLookup_cons, valLookup_nil, h]
  | cons kv rest ih =>
    rcases kv with ⟨k1, v1⟩
    by_cases h1 : k1 = k0
    · subst h1
      rw [dictAdd_cons_self, valLookup_cons, valLookup_cons]
      by_cases h : k1 = k <;> simp [h]
    · rw [dictAdd_cons_ne _ _ _ _ _ h1, valLookup_cons, valLookup_cons]
      by_cases h : k1 = k
      · have hk0 : k0 ≠ k := fun hc => h1 (by rw [h, hc])
        simp [h, hk0]
      · simp [h, ih]

theorem hasKey_dictAdd (d : List (PyStr × ℚ)) (k0 : PyStr) (v : ℚ) (k : PyStr) :
    hasKey (dictAdd d k0 v) k = (hasKey d k || decide (k0 = k)) := by
  induction d with
  | nil => by_cases h : k0 = k <;> simp [dictAdd, hasKey_cons, hasKey, dictGet, h]
  | cons kv rest ih =>
    rcases kv with ⟨k1, v1⟩
    by_cases h1 : k1 = k0
    · subst h1
      rw [dictAdd_cons_self, hasKey_cons, hasKey_cons]
      by_cases h : k1 = k <;> simp [h]
    · rw [dictAdd_cons_ne _ _ _ _ _ h1, hasKey_cons, hasKey_cons, ih, Bool.or_assoc]

theorem dictAdd_hasKey_map (d : List (PyStr × ℚ)) (k : PyStr) (v : ℚ)
    (hnd : (d.map Prod.fst).Nodup) (h : hasKey d k = true) :
    dictAdd d k v = d.map (fun kv => if kv.1 = k then (kv.1, kv.2 + v) else kv) := by
  induction d with
  | nil => simp [hasKey, dictGet] at h
  | cons kv rest ih =>
    rcases kv with ⟨k0, v0⟩
    simp only [List.map_cons, List.nodup_cons] at hnd
    by_cases h0 : k0 = k
    · subst h0
      rw [dictAdd_cons_self, List.map_cons, if_pos rfl]
      congr 1
      have hnotin : ∀ kv' ∈ rest, kv'.1 ≠ k0 := by
        intro kv' hkv' hc
        exact hnd.1 (hc ▸ List.mem_map_of_mem Prod.fst hkv')
      have hmapid : ∀ kv' ∈ rest,
          (if kv'.1 = k0 then (kv'.1, kv'.2 + v) else kv') = id kv' := by
        intro kv' hkv'
        rw [if_neg (hnotin kv' hkv')]
        rfl
      rw [List.map_congr_left hmapid, List.map_id]
    · have hrest : hasKey rest k = true := by
        rw [hasKey_cons] at h
        simpa [h0] using h
      rw [dictAdd_cons_ne _ _ _ _ _ h0, List.map_cons, if_neg h0]
      congr 1
      exact ih hnd.2 hrest

theorem valLookup_foldl_dictAdd (l : List (PyStr × ℚ))
    (hnd : (l.map Prod.fst).Nodup) :
    ∀ (acc : List (PyStr × ℚ)) (k : PyStr),
      valLookup (l.foldl (fun d kv => dictAdd d kv.1 kv.2) acc) k
        = valLookup acc k + valLookup l k := by
  induction l with
  | nil => intro acc k; simp [valLookup_nil]
  | cons kv0 l' ih =>
    rcases kv0 with ⟨k0, v0⟩
    intro acc k
    simp only [List.map_cons, List.nodup_cons] at hnd
    rw [List.foldl_cons, ih hnd.2, valLookup_dictAdd, valLookup_cons]
    by_cases h : k0 = k
    · have hzero : valLookup l' k = 0 := by
        apply valLookup_not_hasKey
        cases hl : hasKey l' k
        · rfl
        · exact absurd ((hasKey_iff l' k).mp hl) (h ▸ hnd.1)
      rw [hzero, if_pos h]
      ring
    · rw [if_neg h, if_neg h]
      ring

theorem hasKey_foldl_dictAdd (l : List (PyStr × ℚ)) :
    ∀ (acc : List (PyStr × ℚ)) (k : PyStr),
      hasKey (l.foldl (fun d kv => dictAdd d kv.1 kv.2) acc) k
        = (hasKey acc k || hasKey l k) := by
  induction l with
  | nil => intro acc k; simp [hasKey, dictGet]
  | cons kv0 l' ih =>
    rcases kv0 with ⟨k0, v0⟩
    intro acc k
    rw [List.foldl_cons, ih, hasKey_dictAdd, hasKey_cons, Bool.or_assoc]


/-! ## Sorting lemmas: the stable descending sort -/

theorem mem_insertDesc (x y : α × ℚ) (l : List (α × ℚ)) :
    y ∈ insertDesc x l ↔ y = x ∨ y ∈ l := by
  induction l with
  | nil => simp [insertDesc]
  | cons z zs ih =>
    simp only [insertDesc]
    by_cases h : x.2 < z.2
    · rw [if_pos h]
      simp only [List.mem_cons, ih]
      tauto
    · rw [if_neg h]
      simp only [List.mem_cons]

theorem insertDesc_perm (x : α × ℚ) (l : List (α × ℚ)) :
    (insertDesc x l).Perm (x :: l) := by
  induction l with
  | nil => simp [insertDesc]
  | cons z zs ih =>
    simp only [insertDesc]
    by_cases h : x.2 < z.2
    · rw [if_pos h]
      exact (ih.cons z).trans (List.Perm.swap x z zs)
    · rw [if_neg h]

theorem sortDesc_perm (l : List (α × ℚ)) : (sortDesc l).Perm l := by
  induction l with
  | nil => simp [sortDesc]
  | cons x xs ih =>
    simp only [sortDesc]
    exact (insertDesc_perm x (sortDesc xs)).trans (ih.cons x)

theorem insertDesc_tie_sublist (x a b : α × ℚ) (htie : a.2 = b.2) :
    ∀ (l : List (α × ℚ)), [a, b].Sublist (insertDesc x l) → [a, b].Sublist (x :: l) := by
  intro l
  induction l with
  | nil =>
    intro h
    have := h.length_le
    simp [insertDesc] at this
  | cons y ys ih =>
    simp only [insertDesc]
    by_cases hx : x.2 < y.2
    · rw [if_pos hx]
      intro h
      cases h with
      | cons _ h' =>
        have h2 := ih h'
        exact h2.trans ((List.sublist_cons_self y ys).cons₂ x)
      | cons₂ _ h' =>
        have hb : b ∈ insertDesc x ys := List.singleton_sublist.mp h'
        rcases (mem_insertDesc x b ys).mp hb with rfl | hbys
        · rw [htie] at hx
          exact absurd hx (lt_irrefl _)
        · exact ((List.singleton_sublist.mpr hbys).cons₂ a).cons x
    · rw [if_neg hx]
      exact id

theorem sortDesc_tie_sublist (a b : α × ℚ) (htie : a.2 = b.2) :
    ∀ (l : List (α × ℚ)), [a, b].Sublist (sortDesc l) → [a, b].Sublist l := by
  intro l
  induction l with
  | nil =>
    intro h
    have := h.length_le
    simp [sortDesc] at this
  | cons x xs ih =>
    intro h
    simp only [sortDesc] at h
    have h1 := insertDesc_tie_sublist x a b htie (sortDesc xs) h
    cases h1 with
    | cons _ h' => exact (ih h').cons x
    | cons₂ _ h' =>
      have hb : b ∈ sortDesc xs := List.singleton_sublist.mp h'
      have hbxs : b ∈ xs := (sortDesc_perm xs).subset hb
      exact (List.singleton_sublist.mpr hbxs).cons₂ a

/-! ## Python slice lemmas -/

theorem pythonTake_sublist (i : Int) (l : List α) : (pythonTake i l).Sublist l := by
  unfold pythonTake
  by_cases h : 0 ≤ i
  · rw [if_pos h]; exact List.take_sublist _ _
  · rw [if_neg h]; exact List.take_sublist _ _

theorem pythonTake_all (i : Int) (l : List α) (h : (l.length : Int) ≤ i) :
    pythonTake i l = l := by
  have h0 : (0 : Int) ≤ i := le_trans (Int.ofNat_nonneg l.length) h
  unfold pythonTake
  rw [if_pos h0]
  apply List.take_of_length_le
  have := Int.toNat_le_toNat h
  simpa using this

theorem pythonTake_length_nonneg (i : Int) (l : List α) (h : 0 ≤ i) :
    (pythonTake i l).length = min i.toNat l.length := by
  unfold pythonTake
  rw [if_pos h]
  exact List.length_take _ _

theorem pythonTake_length_neg (i : Int) (l : List α) (h : i < 0) :
    (pythonTake i l).length = l.length - min ((-i).toNat) l.length := by
  unfold pythonTake
  rw [if_neg (by omega), List.length_take]
  omega

/-! ## General list lemmas -/

theorem indexOf_cons_ne' (a x : PyStr) (l : List PyStr) (h : x ≠ a) :
    List.indexOf x (a :: l) = List.indexOf x l + 1 := by
  have hba : (a == x) = false := by
    rw [beq_eq_false_iff_ne]
    exact fun he => h he.symm
  simp [List.indexOf_cons, hba]

theorem pair_sublist_nodup_indexOf (x y : PyStr) :
    ∀ (l : List PyStr), l.Nodup → [x, y].Sublist l →
      l.indexOf x < l.indexOf y := by
  intro l
  induction l with
  | nil =>
    intro _ h
    have := h.length_le
    simp at this
  | cons a as ih =>
    intro hnd h
    simp only [List.nodup_cons] at hnd
    cases h with
    | cons _ h' =>
      have hx : x ∈ as := h'.subset (by simp)
      have hy : y ∈ as := h'.subset (by simp)
      have hxa : x ≠ a := fun he => hnd.1 (he ▸ hx)
      have hya : y ≠ a := fun he => hnd.1 (he ▸ hy)
      rw [indexOf_cons_ne' a x as hxa, indexOf_cons_ne' a y as hya]
      have := ih hnd.2 h'
      omega
    | cons₂ _ h' =>
      have hy : y ∈ as := List.singleton_sublist.mp h'
      have hya : y ≠ x := fun he => hnd.1 (he ▸ hy)
      have h0 : List.indexOf x (x :: as) = 0 := by
        simp [List.indexOf_cons]
      rw [h0, indexOf_cons_ne' x y as hya]
      omega

theorem filterMap_map_sublist {α β γ : Type _} (l : List α) (g : α → Option β)
    (h1 : β → γ) (h2 : α → γ)
    (hcomp : ∀ a ∈ l, ∀ b, g a = some b → h1 b = h2 a) :
    ((l.filterMap g).map h1).Sublist (l.map h2) := by
  induction l with
  | nil => simp
  | cons a as ih =>
    have ih' := ih (fun a' ha' b hb => hcomp a' (by simp [ha']) b hb)
    cases hg : g a with
    | none =>
      rw [List.filterMap_cons_none hg, List.map_cons]
      exact ih'.cons (h2 a)
    | some b =>
      rw [List.filterMap_cons_some hg, List.map_cons, List.map_cons]
      rw [hcomp a (by simp) b hg]
      exact ih'.cons₂ (h2 a)

/-! ## Score dict characterizations -/

theorem scores_foldl_eq (cs : List Chunk) (e : Chunk → Option ℚ)
    (F : List (PyStr × ℚ) → Chunk → List (PyStr × ℚ))
    (hF : ∀ d c, F d c = match e c with
      | some q => dictSet d c.id q
      | none => d)
    (hnd : (cs.map (fun c => c.id)).Nodup) :
    ∀ acc : List (PyStr × ℚ), (∀ c ∈ cs, hasKey acc c.id = false) →
      cs.foldl F acc
        = acc ++ cs.filterMap (fun c => match e c with
            | some q => some (c.id, q)
            | none => none) := by
  induction cs with
  | nil => intro acc _; simp
  | cons c cs' ih =>
    intro acc hfresh
    simp only [List.map_cons, List.nodup_cons] at hnd
    cases he : e c with
    | none =>
      rw [List.foldl_cons, hF, he]
      show List.foldl F acc cs' = _
      rw [ih hnd.2 acc (fun c' hc' => hfresh c' (by simp [hc']))]
      rw [List.filterMap_cons_none (by rw [he])]
    | some q =>
      rw [List.foldl_cons, hF, he]
      show List.foldl F (dictSet acc c.id q) cs' = _
      rw [dictSet_not_hasKey acc c.id q (hfresh c (by simp))]
      rw [ih hnd.2 (acc ++ [(c.id, q)]) ?_]
      · rw [List.filterMap_cons_some (by rw [he])]
        simp [List.append_assoc]
      · intro c' hc'
        rw [hasKey_append]
        have h1 : hasKey acc c'.id = false := hfresh c' (by simp [hc'])
        have h2 : hasKey [(c.id, q)] c'.id = false := by
          rw [hasKey_cons]
          have hne : c.id ≠ c'.id :=
            fun he' => hnd.1 (he' ▸ List.mem_map_of_mem (fun c => c.id) hc')
          simp [hne, hasKey, dictGet]
        rw [h1, h2]
        rfl

theorem dictGet_filterMap_entries (cs : List Chunk) (e : Chunk → Option ℚ)
    (hnd : (cs.map (fun c => c.id)).Nodup) :
    ∀ c ∈ cs, dictGet (cs.filterMap (fun c' => match e c' with
        | some q => some (c'.id, q)
        | none => none)) c.id = e c := by
  induction cs with
  | nil => intro c hc; cases hc
  | cons c0 cs' ih =>
    intro c hc
    simp only [List.map_cons, List.nodup_cons] at hnd
    have hkeys : ∀ k, k ∈ ((cs'.filterMap (fun c' => match e c' with
        | some q => some (c'.id, q)
        | none => none)).map Prod.fst) → k ∈ cs'.map (fun c => c.id) := by
      intro k hk
      refine (filterMap_map_sublist cs' _ Prod.fst (fun c => c.id) ?_).subset hk
      intro a _ b hg
      cases hea : e a with
      | none => rw [hea] at hg; cases hg
      | some q => rw [hea] at hg; injection hg with hg'; rw [← hg']
    rcases List.mem_cons.mp hc with rfl | hc'
    · cases he : e c with
      | none =>
        rw [List.filterMap_cons_none (by rw [he])]
        exact dictGet_eq_none_of_not_mem _ _ (fun hmem => hnd.1 (hkeys _ hmem))
      | some q =>
        rw [List.filterMap_cons_some (by rw [he])]
        rw [dictGet_cons, if_pos rfl]
    · have hne : c0.id ≠ c.id :=
        fun he' => hnd.1 (he' ▸ List.mem_map_of_mem (fun c => c.id) hc')
      cases he : e c0 with
      | none =>
        rw [List.filterMap_cons_none (by rw [he])]
        exact ih hnd.2 c hc'
      | some q =>
        rw [List.filterMap_cons_some (by rw [he])]
        rw [dictGet_cons, if_neg hne]
        exact ih hnd.2 c hc'


/-! ## Candidate selection lemmas -/

theorem aclSkip_eq_false_iff (repo : InMemoryRepository) (v : Option PyStr)
    (doc : Document) : aclSkip repo v doc = false ↔ aclPass repo v doc := by
  cases v with
  | none => simp [aclSkip, aclPass]
  | some vv =>
    simp [aclSkip, aclPass]
    tauto

theorem srcSkip_eq_false_iff (f : Option SearchFilters) (doc : Document) :
    srcSkip f doc = false ↔ srcPass f doc := by
  cases f with
  | none => simp [srcSkip, srcPass]
  | some fl =>
    cases hs : fl.source with
    | none => simp [srcSkip, srcPass, hs]
    | some srcs =>
      simp [srcSkip, srcPass, hs]
      tauto

theorem projSkip_eq_false_iff (f : Option SearchFilters) (doc : Document) :
    projSkip f doc = false ↔ projPass f doc := by
  cases f with
  | none => simp [projSkip, projPass]
  | some fl =>
    cases hp : fl.project with
    | none => simp [projSkip, projPass, hp]
    | some projs =>
      cases hd : doc.project with
      | none => simp [projSkip, projPass, hp, hd]
      | some p =>
        simp [projSkip, projPass, hp, hd]
        tauto

theorem iterChunkEntry_eq_some_iff (repo : InMemoryRepository)
    (f : Option SearchFilters) (v : Option PyStr) (kv : PyStr × Chunk) (c : Chunk) :
    iterChunkEntry repo f v kv = some c ↔
      c = kv.2 ∧ ∃ d, dictGet repo.documents kv.2.document_id = some d ∧
        aclPass repo v d ∧ srcPass f d ∧ projPass f d := by
  unfold iterChunkEntry
  cases hdoc : dictGet repo.documents kv.2.document_id with
  | none => simp
  | some doc =>
    constructor
    · intro h0
      have h : (if aclSkip repo v doc = true then (none : Option Chunk)
          else if srcSkip f doc = true then none
          else if projSkip f doc = true then none
          else some kv.2) = some c := h0
      by_cases h1 : aclSkip repo v doc = true
      · rw [if_pos h1] at h; cases h
      · rw [if_neg h1] at h
        by_cases h2 : srcSkip f doc = true
        · rw [if_pos h2] at h; cases h
        · rw [if_neg h2] at h
          by_cases h3 : projSkip f doc = true
          · rw [if_pos h3] at h; cases h
          · rw [if_neg h3] at h
            injection h with h'
            have h1' : aclSkip repo v doc = false := by
              revert h1; cases aclSkip repo v doc <;> simp
            have h2' : srcSkip f doc = false := by
              revert h2; cases srcSkip f doc <;> simp
            have h3' : projSkip f doc = false := by
              revert h3; cases projSkip f doc <;> simp
            exact ⟨h'.symm, doc, rfl,
              (aclSkip_eq_false_iff repo v doc).mp h1',
              (srcSkip_eq_false_iff f doc).mp h2',
              (projSkip_eq_false_iff f doc).mp h3'⟩
    · rintro ⟨rfl, d, hd, hacl, hsrc, hproj⟩
      injection hd with hd'
      subst hd'
      show (if aclSkip repo v doc = true then (none : Option Chunk)
          else if srcSkip f doc = true then none
          else if projSkip f doc = true then none
          else some kv.2) = some kv.2
      rw [if_neg (by simp [(aclSkip_eq_false_iff repo v doc).mpr hacl])]
      rw [if_neg (by simp [(srcSkip_eq_false_iff f doc).mpr hsrc])]
      rw [if_neg (by simp [(projSkip_eq_false_iff f doc).mpr hproj])]

theorem mem_iter_chunks (repo : InMemoryRepository) (f : Option SearchFilters)
    (v : Option PyStr) (c : Chunk) :
    c ∈ repo._iter_chunks f v ↔
      ∃ kv, kv ∈ repo.chunks ∧ kv.2 = c ∧
        ∃ d, dictGet repo.documents c.document_id = some d ∧
          aclPass repo v d ∧ srcPass f d ∧ projPass f d := by
  unfold InMemoryRepository._iter_chunks
  rw [List.mem_filterMap]
  constructor
  · rintro ⟨kv, hkv, hf⟩
    obtain ⟨hc, d, hd, h1, h2, h3⟩ := (iterChunkEntry_eq_some_iff repo f v kv c).mp hf
    subst hc
    exact ⟨kv, hkv, rfl, d, hd, h1, h2, h3⟩
  · rintro ⟨kv, hkv, rfl, d, hd, h1, h2, h3⟩
    exact ⟨kv, hkv, (iterChunkEntry_eq_some_iff repo f v kv kv.2).mpr
      ⟨rfl, d, hd, h1, h2, h3⟩⟩

theorem iter_ids_sublist (repo : InMemoryRepository) (f : Option SearchFilters)
    (v : Option PyStr) (hwf : ReposWF repo) :
    ((repo._iter_chunks f v).map (fun c => c.id)).Sublist (repo.chunks.map Prod.fst) := by
  unfold InMemoryRepository._iter_chunks
  apply filterMap_map_sublist
  intro kv hkv c hfc
  obtain ⟨hc, _, _, _, _, _⟩ := (iterChunkEntry_eq_some_iff repo f v kv c).mp hfc
  rw [hc]
  exact hwf.2 kv hkv

theorem iter_ids_nodup (repo : InMemoryRepository) (f : Option SearchFilters)
    (v : Option PyStr) (hwf : ReposWF repo) :
    ((repo._iter_chunks f v).map (fun c => c.id)).Nodup :=
  hwf.1.sublist (iter_ids_sublist repo f v hwf)

/-! ## Lexical and vector score dicts -/

theorem lexical_scores_eq (repo : InMemoryRepository) (q : PyStr)
    (f : Option SearchFilters) (v : Option PyStr)
    (hnd : ((repo._iter_chunks f v).map (fun c => c.id)).Nodup) :
    repo._lexical_scores q f v
      = (repo._iter_chunks f v).filterMap (fun c =>
          match (if chunkLexScore q c ≠ 0 then some ((chunkLexScore q c : ℚ)) else none) with
          | some s => some (c.id, s)
          | none => none) := by
  have h := scores_foldl_eq (repo._iter_chunks f v)
      (fun c => if chunkLexScore q c ≠ 0 then some ((chunkLexScore q c : ℚ)) else none)
      (fun scores chunk => if chunkLexScore q chunk ≠ 0
        then dictSet scores chunk.id ((chunkLexScore q chunk : ℚ)) else scores)
      (fun d c => by by_cases hc : chunkLexScore q c ≠ 0 <;> simp [hc])
      hnd [] (fun c _ => rfl)
  rw [List.nil_append] at h
  exact h

theorem vector_scores_eq (embed : PyStr → List ℚ) (repo : InMemoryRepository)
    (q : PyStr) (f : Option SearchFilters) (v : Option PyStr)
    (hnd : ((repo._iter_chunks f v).map (fun c => c.id)).Nodup) :
    repo._vector_scores embed q f v
      = (repo._iter_chunks f v).filterMap (fun c =>
          match (match chunkEmbedding repo c with
                 | none => none
                 | some emb => if 0 < dot (embed q) emb.vector
                     then some (dot (embed q) emb.vector) else none) with
          | some s => some (c.id, s)
          | none => none) := by
  have h := scores_foldl_eq (repo._iter_chunks f v)
      (fun c => match chunkEmbedding repo c with
        | none => none
        | some emb => if 0 < dot (embed q) emb.vector
            then some (dot (embed q) emb.vector) else none)
      (fun scores chunk => match chunkEmbedding repo chunk with
        | none => scores
        | some emb => if 0 < dot (embed q) emb.vector
            then dictSet scores chunk.id (dot (embed q) emb.vector) else scores)
      (fun d c => by
        cases hce : chunkEmbedding repo c with
        | none => simp [hce]
        | some emb => by_cases hlt : 0 < dot (embed q) emb.vector <;> simp [hce, hlt])
      hnd [] (fun c _ => rfl)
  rw [List.nil_append] at h
  exact h

theorem lex_keys_sublist (repo : InMemoryRepository) (q : PyStr)
    (f : Option SearchFilters) (v : Option PyStr)
    (hnd : ((repo._iter_chunks f v).map (fun c => c.id)).Nodup) :
    ((repo._lexical_scores q f v).map Prod.fst).Sublist
      ((repo._iter_chunks f v).map (fun c => c.id)) := by
  rw [lexical_scores_eq repo q f v hnd]
  apply filterMap_map_sublist
  intro c _ b hg
  cases hif : (if chunkLexScore q c ≠ 0 then some ((chunkLexScore q c : ℚ)) else none) with
  | none => rw [hif] at hg; cases hg
  | some s => rw [hif] at hg; injection hg with hg'; rw [← hg']

theorem vec_keys_sublist (embed : PyStr → List ℚ) (repo : InMemoryRepository)
    (q : PyStr) (f : Option SearchFilters) (v : Option PyStr)
    (hnd : ((repo._iter_chunks f v).map (fun c => c.id)).Nodup) :
    ((repo._vector_scores embed q f v).map Prod.fst).Sublist
      ((repo._iter_chunks f v).map (fun c => c.id)) := by
  rw [vector_scores_eq embed repo q f v hnd]
  apply filterMap_map_sublist
  intro c _ b hg
  cases hif : (match chunkEmbedding repo c with
      | none => none
      | some emb => if 0 < dot (embed q) emb.vector
          then some (dot (embed q) emb.vector) else none) with
  | none => rw [hif] at hg; cases hg
  | some s => rw [hif] at hg; injection hg with hg'; rw [← hg']

theorem lex_keys_nodup (repo : InMemoryRepository) (q : PyStr)
    (f : Option SearchFilters) (v : Option PyStr)
    (hnd : ((repo._iter_chunks f v).map (fun c => c.id)).Nodup) :
    ((repo._lexical_scores q f v).map Prod.fst).Nodup :=
  hnd.sublist (lex_keys_sublist repo q f v hnd)

theorem vec_keys_nodup (embed : PyStr → List ℚ) (repo : InMemoryRepository)
    (q : PyStr) (f : Option SearchFilters) (v : Option PyStr)
    (hnd : ((repo._iter_chunks f v).map (fun c => c.id)).Nodup) :
    ((repo._vector_scores embed q f v).map Prod.fst).Nodup :=
  hnd.sublist (vec_keys_sublist embed repo q f v hnd)

theorem dictGet_lexical (repo : InMemoryRepository) (q : PyStr)
    (f : Option SearchFilters) (v : Option PyStr)
    (hnd : ((repo._iter_chunks f v).map (fun c => c.id)).Nodup)
    (c : Chunk) (hc : c ∈ repo._iter_chunks f v) :
    dictGet (repo._lexical_scores q f v) c.id
      = (if chunkLexScore q c ≠ 0 then some ((chunkLexScore q c : ℚ)) else none) := by
  rw [lexical_scores_eq repo q f v hnd]
  exact dictGet_filterMap_entries _ _ hnd c hc

theorem dictGet_vector (embed : PyStr → List ℚ) (repo : InMemoryRepository)
    (q : PyStr) (f : Option SearchFilters) (v : Option PyStr)
    (hnd : ((repo._iter_chunks f v).map (fun c => c.id)).Nodup)
    (c : Chunk) (hc : c ∈ repo._iter_chunks f v) :
    dictGet (repo._vector_scores embed q f v) c.id
      = (match chunkEmbedding repo c with
         | none => none
         | some emb => if 0 < dot (embed q) emb.vector
             then some (dot (embed q) emb.vector) else none) := by
  rw [vector_scores_eq embed repo q f v hnd]
  exact dictGet_filterMap_entries _ _ hnd c hc


/-! ## The fused score dict -/

theorem foldl_dictAdd_fresh (l : List (PyStr × ℚ)) (hnd : (l.map Prod.fst).Nodup) :
    ∀ acc : List (PyStr × ℚ), (∀ kv ∈ l, hasKey acc kv.1 = false) →
      l.foldl (fun d kv => dictAdd d kv.1 kv.2) acc = acc ++ l := by
  induction l with
  | nil => intro acc _; simp
  | cons kv0 l' ih =>
    rcases kv0 with ⟨k0, v0⟩
    intro acc hfresh
    simp only [List.map_cons, List.nodup_cons] at hnd
    rw [List.foldl_cons, dictAdd_not_hasKey acc k0 v0 (hfresh (k0, v0) (by simp))]
    rw [ih hnd.2 (acc ++ [(k0, v0)]) ?_]
    · simp
    · intro kv hkv
      rw [hasKey_append]
      have h1 : hasKey acc kv.1 = false := hfresh kv (by simp [hkv])
      have h2 : hasKey [(k0, v0)] kv.1 = false := by
        rw [hasKey_cons]
        have hne : k0 ≠ kv.1 :=
          fun he => hnd.1 (he ▸ List.mem_map_of_mem Prod.fst hkv)
        simp [hne, hasKey, dictGet]
      rw [h1, h2]
      rfl

theorem foldl_dictAdd_char (vec : List (PyStr × ℚ)) :
    ∀ (lex : List (PyStr × ℚ)), (vec.map Prod.fst).Nodup → (lex.map Prod.fst).Nodup →
      vec.foldl (fun d kv => dictAdd d kv.1 kv.2) lex
        = lex.map (fun kv => (kv.1, kv.2 + valLookup vec kv.1))
          ++ vec.filter (fun kv => !(hasKey lex kv.1)) := by
  induction vec with
  | nil =>
    intro lex _ _
    have hmap : ∀ kv ∈ lex,
        (kv.1, kv.2 + valLookup ([] : List (PyStr × ℚ)) kv.1) = id kv := by
      intro kv _
      simp [valLookup_nil]
    simp only [List.foldl_nil, List.filter_nil, List.append_nil]
    rw [List.map_congr_left hmap, List.map_id]
  | cons kv0 vec' ih =>
    rcases kv0 with ⟨k0, v0⟩
    intro lex hv hl
    simp only [List.map_cons, List.nodup_cons] at hv
    rw [List.foldl_cons]
    by_cases hkey : hasKey lex k0 = true
    · rw [dictAdd_hasKey_map lex k0 v0 hl hkey]
      have hkeysf : (Prod.fst ∘ (fun kv : PyStr × ℚ =>
          if kv.1 = k0 then (kv.1, kv.2 + v0) else kv)) = Prod.fst := by
        funext kv
        by_cases h : kv.1 = k0 <;> simp [h]
      have hl1 : ((lex.map (fun kv =>
          if kv.1 = k0 then (kv.1, kv.2 + v0) else kv)).map Prod.fst).Nodup := by
        rw [List.map_map, hkeysf]
        exact hl
      rw [ih _ hv.2 hl1]
      congr 1
      · rw [List.map_map]
        apply List.map_congr_left
        intro kv hkv
        by_cases h : kv.1 = k0
        · have hz : valLookup vec' k0 = 0 := by
            apply valLookup_not_hasKey
            cases hk : hasKey vec' k0
            · rfl
            · exact absurd ((hasKey_iff _ _).mp hk) hv.1
          simp [h, hz, valLookup_cons]
        · have hk0ne : ¬ (k0 = kv.1) := fun hc => h hc.symm
          simp [h, valLookup_cons, hk0ne]
      · have hfeq : ∀ kv ∈ vec',
            (!(hasKey (lex.map (fun kv =>
              if kv.1 = k0 then (kv.1, kv.2 + v0) else kv)) kv.1))
              = (!(hasKey lex kv.1)) := by
          intro kv _
          congr 1
          rw [Bool.eq_iff_iff, hasKey_iff, hasKey_iff, List.map_map, hkeysf]
        rw [List.filter_congr hfeq, List.filter_cons, if_neg (by simp [hkey])]
    · have hkeyf : hasKey lex k0 = false := by
        revert hkey; cases hasKey lex k0 <;> simp
      rw [dictAdd_not_hasKey lex k0 v0 hkeyf]
      have hk0lex : k0 ∉ lex.map Prod.fst := by
        intro hm
        rw [← hasKey_iff] at hm
        rw [hm] at hkeyf
        cases hkeyf
      have hl1 : ((lex ++ [(k0, v0)]).map Prod.fst).Nodup := by
        rw [List.map_append, List.nodup_append]
        refine ⟨hl, by simp, ?_⟩
        intro a ha hb
        simp at hb
        subst hb
        exact hk0lex ha
      rw [ih _ hv.2 hl1, List.map_append]
      have hz : valLookup vec' k0 = 0 := by
        apply valLookup_not_hasKey
        cases hk : hasKey vec' k0
        · rfl
        · exact absurd ((hasKey_iff _ _).mp hk) hv.1
      have hsing : ([(k0, v0)].map (fun kv =>
          (kv.1, kv.2 + valLookup vec' kv.1))) = [(k0, v0)] := by
        simp [valLookup_cons, hz]
      have hmap : lex.map (fun kv => (kv.1, kv.2 + valLookup vec' kv.1))
          = lex.map (fun kv => (kv.1, kv.2 + valLookup ((k0, v0) :: vec') kv.1)) := by
        apply List.map_congr_left
        intro kv hkv
        have hne : ¬ (k0 = kv.1) :=
          fun hc => hk0lex (hc ▸ List.mem_map_of_mem Prod.fst hkv)
        simp [valLookup_cons, hne]
      have hfil : vec'.filter (fun kv => !(hasKey (lex ++ [(k0, v0)]) kv.1))
          = vec'.filter (fun kv => !(hasKey lex kv.1)) := by
        apply List.filter_congr
        intro kv hkv
        have hne : k0 ≠ kv.1 :=
          fun hc => hv.1 (hc ▸ List.mem_map_of_mem Prod.fst hkv)
        rw [hasKey_append]
        have hone : hasKey [(k0, v0)] kv.1 = false := by
          rw [hasKey_cons]
          simp [hne, hasKey, dictGet]
        rw [hone, Bool.or_false]
      rw [hsing, hmap, hfil, List.filter_cons, if_pos (by simp [hkeyf]),
        List.append_assoc]
      rfl

theorem combinedScores_eq (embed : PyStr → List ℚ) (repo : InMemoryRepository)
    (q : PyStr) (f : Option SearchFilters) (v : Option PyStr) (hwf : ReposWF repo) :
    combinedScores embed repo q f v
      = (repo._lexical_scores q f v).map
          (fun kv => (kv.1, kv.2 + valLookup (repo._vector_scores embed q f v) kv.1))
        ++ (repo._vector_scores embed q f v).filter
            (fun kv => !(hasKey (repo._lexical_scores q f v) kv.1)) := by
  have hnd := iter_ids_nodup repo f v hwf
  have hl := lex_keys_nodup repo q f v hnd
  have hv := vec_keys_nodup embed repo q f v hnd
  unfold combinedScores
  rw [foldl_dictAdd_fresh _ hl [] (fun _ _ => rfl), List.nil_append]
  exact foldl_dictAdd_char _ _ hv hl

theorem combined_keys_nodup (embed : PyStr → List ℚ) (repo : InMemoryRepository)
    (q : PyStr) (f : Option SearchFilters) (v : Option PyStr) (hwf : ReposWF repo) :
    ((combinedScores embed repo q f v).map Prod.fst).Nodup := by
  have hnd := iter_ids_nodup repo f v hwf
  have hl := lex_keys_nodup repo q f v hnd
  have hv := vec_keys_nodup embed repo q f v hnd
  rw [combinedScores_eq embed repo q f v hwf, List.map_append]
  rw [List.nodup_append]
  refine ⟨?_, ?_, ?_⟩
  · have : (Prod.fst ∘ (fun kv : PyStr × ℚ =>
        (kv.1, kv.2 + valLookup (repo._vector_scores embed q f v) kv.1))) = Prod.fst := by
      funext kv; rfl
    rw [List.map_map, this]
    exact hl
  · exact hv.sublist ((List.filter_sublist _).map Prod.fst)
  · intro a ha hb
    have ha' : a ∈ (repo._lexical_scores q f v).map Prod.fst := by
      have : (Prod.fst ∘ (fun kv : PyStr × ℚ =>
          (kv.1, kv.2 + valLookup (repo._vector_scores embed q f v) kv.1))) = Prod.fst := by
        funext kv; rfl
      rwa [List.map_map, this] at ha
    obtain ⟨kv, hkv, hkva⟩ := List.mem_map.mp hb
    have hkeep := List.of_mem_filter hkv
    rw [hkva] at hkeep
    rw [← hasKey_iff] at ha'
    rw [ha'] at hkeep
    cases hkeep

/-! ## Result construction -/

theorem dictGet_some_mem (d : List (PyStr × α)) (k : PyStr) (v : α)
    (h : dictGet d k = some v) : (k, v) ∈ d := by
  induction d with
  | nil => cases h
  | cons kv rest ih =>
    rcases kv with ⟨k0, v0⟩
    rw [dictGet_cons] at h
    by_cases he : k0 = k
    · rw [if_pos he] at h
      injection h with h'
      subst he
      subst h'
      exact List.mem_cons_self _ _
    · rw [if_neg he] at h
      exact List.mem_cons_of_mem _ (ih h)

theorem search_build (repo : InMemoryRepository) (hwf : ReposWF repo) :
    ∀ (l : List (PyStr × ℚ)) (n : Nat),
      (∀ p ∈ l, ∃ chunk, dictGet repo.chunks p.1 = some chunk ∧
        ∃ doc, dictGet repo.documents chunk.document_id = some doc) →
      ((l.enumFrom n).filterMap (mkSearchResult repo)).map (fun r => (r.id, r.score)) = l := by
  intro l
  induction l with
  | nil => intro n _; rfl
  | cons p0 l' ih =>
    intro n hsucc
    obtain ⟨chunk, hc, doc, hd⟩ := hsucc p0 (by simp)
    have hid : chunk.id = p0.1 := hwf.2 (p0.1, chunk) (dictGet_some_mem _ _ _ hc)
    have hmk : mkSearchResult repo (n, p0) = some
        { id := chunk.id
          document_id := doc.id
          source := doc.source
          title := doc.title
          text := chunk.text
          score := p0.2
          rank := n + 1
          provenance :=
            { start_ms := chunk.start_ms
              end_ms := chunk.end_ms
              speaker := chunk.speaker
              workspace_id := doc.workspace_id
              project := doc.project } } := by
      unfold mkSearchResult
      simp only [hc, hd]
    have hstep : ((p0 :: l').enumFrom n) = (n, p0) :: l'.enumFrom (n + 1) := rfl
    rw [hstep, List.filterMap_cons_some hmk, List.map_cons,
      ih (n + 1) (fun p hp => hsucc p (by simp [hp]))]
    congr 1
    rw [hid]

theorem search_map_proj (embed : PyStr → List ℚ) (repo : InMemoryRepository)
    (q : PyStr) (f : Option SearchFilters) (lim : Int) (v : Option PyStr)
    (hwf : ReposWF repo) :
    (repo.search embed q f lim v).map (fun r => (r.id, r.score))
      = pythonTake lim (sortDesc (combinedScores embed repo q f v)) := by
  have hnd := iter_ids_nodup repo f v hwf
  show ((pythonTake lim (sortDesc (combinedScores embed repo q f v))).enumFrom
      0 |>.filterMap (mkSearchResult repo)).map (fun r => (r.id, r.score)) = _
  apply search_build repo hwf _ 0
  intro p hp
  have hpc : p ∈ combinedScores embed repo q f v :=
    (sortDesc_perm _).subset ((pythonTake_sublist lim _).subset hp)
  have hkey : hasKey (combinedScores embed repo q f v) p.1 = true := by
    rw [hasKey_iff]
    exact List.mem_map_of_mem Prod.fst hpc
  have hlv : (hasKey (repo._lexical_scores q f v) p.1
      || hasKey (repo._vector_scores embed q f v) p.1) = true := by
    unfold combinedScores at hkey
    rw [hasKey_foldl_dictAdd, hasKey_foldl_dictAdd] at hkey
    simpa [hasKey, dictGet] using hkey
  have hckey : p.1 ∈ (repo._iter_chunks f v).map (fun c => c.id) := by
    rcases (by simpa using hlv :
        hasKey (repo._lexical_scores q f v) p.1 = true
          ∨ hasKey (repo._vector_scores embed q f v) p.1 = true) with h | h
    · exact (lex_keys_sublist repo q f v hnd).subset ((hasKey_iff _ _).mp h)
    · exact (vec_keys_sublist embed repo q f v hnd).subset ((hasKey_iff _ _).mp h)
  obtain ⟨c, hc, hcid⟩ := List.mem_map.mp hckey
  obtain ⟨kv, hkv, hkvc, d, hd, _, _, _⟩ := (mem_iter_chunks repo f v c).mp hc
  have hkvid : kv.1 = c.id := by rw [← hwf.2 kv hkv, hkvc]
  have hget : dictGet repo.chunks p.1 = some c := by
    rw [← hcid, ← hkvid, ← hkvc]
    exact dictGet_of_mem_nodup repo.chunks kv.1 kv.2 hwf.1 (by simpa using hkv)
  exact ⟨c, hget, d, hd⟩


theorem dictGet_dictSet_self (d : List (PyStr × α)) (k : PyStr) (v : α) :
    dictGet (dictSet d k v) k = some v := by
  induction d with
  | nil => simp [dictSet, dictGet_cons]
  | cons kv rest ih =>
    rcases kv with ⟨k0, v0⟩
    by_cases h : k0 = k
    · simp only [dictSet, if_pos h]
      rw [dictGet_cons, if_pos h]
    · simp only [dictSet, if_neg h]
      rw [dictGet_cons, if_neg h]
      exact ih

theorem combined_hasKey (embed : PyStr → List ℚ) (repo : InMemoryRepository)
    (q : PyStr) (f : Option SearchFilters) (v : Option PyStr) (k : PyStr) :
    hasKey (combinedScores embed repo q f v) k
      = (hasKey (repo._lexical_scores q f v) k
          || hasKey (repo._vector_scores embed q f v) k) := by
  unfold combinedScores
  rw [hasKey_foldl_dictAdd, hasKey_foldl_dictAdd]
  have h0 : hasKey ([] : List (PyStr × ℚ)) k = false := rfl
  rw [h0, Bool.false_or]

theorem combined_valLookup (embed : PyStr → List ℚ) (repo : InMemoryRepository)
    (q : PyStr) (f : Option SearchFilters) (v : Option PyStr) (hwf : ReposWF repo)
    (k : PyStr) :
    valLookup (combinedScores embed repo q f v) k
      = valLookup (repo._lexical_scores q f v) k
        + valLookup (repo._vector_scores embed q f v) k := by
  have hnd := iter_ids_nodup repo f v hwf
  unfold combinedScores
  rw [valLookup_foldl_dictAdd _ (vec_keys_nodup embed repo q f v hnd),
    valLookup_foldl_dictAdd _ (lex_keys_nodup repo q f v hnd), valLookup_nil]
  ring

/-! ## Claim C1 -/

/-- C1: a candidate chunk appears in the search result iff its lexical score is
non-zero or its stored embedding has a strictly positive dot product with the query
embedding, and its fused score is the sum of the lexical score and the (positive)
vector contribution; a chunk contributing to neither score dict is absent.  The
hypothesis `hlim` rules out truncation by the caller's limit (which claim C3
handles); `hwf` states the dict-key invariants every Python-reachable repository
satisfies. -/
theorem search_fusion (embed : PyStr → List ℚ) (repo : InMemoryRepository)
    (q : PyStr) (f : Option SearchFilters) (lim : Int) (v : Option PyStr)
    (hwf : ReposWF repo)
    (hlim : ((combinedScores embed repo q f v).length : Int) ≤ lim) :
    ∀ c ∈ repo._iter_chunks f v,
      ((∃ r ∈ repo.search embed q f lim v, r.id = c.id) ↔
        (chunkLexScore q c ≠ 0 ∨
          ∃ emb, chunkEmbedding repo c = some emb ∧ 0 < dot (embed q) emb.vector)) ∧
      ∀ r ∈ repo.search embed q f lim v, r.id = c.id →
        r.score = (chunkLexScore q c : ℚ)
          + (match chunkEmbedding repo c with
             | none => 0
             | some emb => if 0 < dot (embed q) emb.vector
                 then dot (embed q) emb.vector else 0) := by
  intro c hc
  have hnd := iter_ids_nodup repo f v hwf
  have hproj := search_map_proj embed repo q f lim v hwf
  have hall : pythonTake lim (sortDesc (combinedScores embed repo q f v))
      = sortDesc (combinedScores embed repo q f v) := by
    apply pythonTake_all
    rw [(sortDesc_perm _).length_eq]
    exact hlim
  rw [hall] at hproj
  have hkeyiff : hasKey (combinedScores embed repo q f v) c.id = true ↔
      (chunkLexScore q c ≠ 0 ∨
        ∃ emb, chunkEmbedding repo c = some emb ∧ 0 < dot (embed q) emb.vector) := by
    rw [combined_hasKey]
    constructor
    · intro h
      rcases (by simpa using h :
          hasKey (repo._lexical_scores q f v) c.id = true
            ∨ hasKey (repo._vector_scores embed q f v) c.id = true) with h1 | h1
      · left
        have hdl := dictGet_lexical repo q f v hnd c hc
        unfold hasKey at h1
        rw [hdl] at h1
        by_cases hz : chunkLexScore q c ≠ 0
        · exact hz
        · rw [if_neg hz] at h1; cases h1
      · right
        have hdv := dictGet_vector embed repo q f v hnd c hc
        unfold hasKey at h1
        rw [hdv] at h1
        cases hce : chunkEmbedding repo c with
        | none =>
          simp only [hce] at h1
          simp at h1
        | some emb =>
          simp only [hce] at h1
          by_cases hlt : 0 < dot (embed q) emb.vector
          · exact ⟨emb, rfl, hlt⟩
          · rw [if_neg hlt] at h1
            simp at h1
    · intro h
      rcases h with h1 | ⟨emb, hce, hlt⟩
      · have hdl := dictGet_lexical repo q f v hnd c hc
        have hkl : hasKey (repo._lexical_scores q f v) c.id = true := by
          unfold hasKey
          rw [hdl, if_pos h1]
          rfl
        simp [hkl]
      · have hdv := dictGet_vector embed repo q f v hnd c hc
        have hkv : hasKey (repo._vector_scores embed q f v) c.id = true := by
          unfold hasKey
          rw [hdv]
          simp only [hce]
          rw [if_pos hlt]
          rfl
        simp [hkv]
  constructor
  · constructor
    · rintro ⟨r, hr, hrid⟩
      apply hkeyiff.mp
      have hmem : (r.id, r.score) ∈ sortDesc (combinedScores embed repo q f v) := by
        rw [← hproj]
        exact List.mem_map_of_mem _ hr
      have hmem2 : (r.id, r.score) ∈ combinedScores embed repo q f v :=
        (sortDesc_perm _).subset hmem
      rw [hasKey_iff, ← hrid]
      exact List.mem_map_of_mem Prod.fst hmem2
    · intro h
      have hk := hkeyiff.mpr h
      unfold hasKey at hk
      rcases hdg : dictGet (combinedScores embed repo q f v) c.id with _ | val
      · rw [hdg] at hk; cases hk
      · have hmem : (c.id, val) ∈ combinedScores embed repo q f v :=
          dictGet_some_mem _ _ _ hdg
        have hmem2 : (c.id, val) ∈ sortDesc (combinedScores embed repo q f v) :=
          ((sortDesc_perm _).mem_iff).mpr hmem
        rw [← hproj] at hmem2
        obtain ⟨r, hr, hreq⟩ := List.mem_map.mp hmem2
        exact ⟨r, hr, congrArg Prod.fst hreq⟩
  · intro r hr hrid
    have hmem : (r.id, r.score) ∈ sortDesc (combinedScores embed repo q f v) := by
      rw [← hproj]
      exact List.mem_map_of_mem _ hr
    have hmem2 : (r.id, r.score) ∈ combinedScores embed repo q f v :=
      (sortDesc_perm _).subset hmem
    have hdg : dictGet (combinedScores embed repo q f v) r.id = some r.score :=
      dictGet_of_mem_nodup _ _ _ (combined_keys_nodup embed repo q f v hwf) hmem2
    have hval : valLookup (combinedScores embed repo q f v) r.id = r.score := by
      rw [valLookup, hdg]
      rfl
    rw [← hval, hrid, combined_valLookup embed repo q f v hwf]
    congr 1
    · rw [valLookup, dictGet_lexical repo q f v hnd c hc]
      by_cases hz : chunkLexScore q c ≠ 0
      · rw [if_pos hz]
        rfl
      · rw [if_neg hz, not_not.mp hz]
        simp
    · rw [valLookup, dictGet_vector embed repo q f v hnd c hc]
      cases hce : chunkEmbedding repo c with
      | none => rfl
      | some emb =>
        show (if 0 < dot (embed q) emb.vector
            then some (dot (embed q) emb.vector) else none).getD 0
          = (if 0 < dot (embed q) emb.vector then dot (embed q) emb.vector else 0)
        by_cases hlt : 0 < dot (embed q) emb.vector
        · rw [if_pos hlt, if_pos hlt]
          rfl
        · rw [if_neg hlt, if_neg hlt]
          rfl

/-- Witness: in the fixture repository, chunk `b` is a candidate with a non-zero
lexical score for query `"zz"`, so it appears in the results. -/
theorem search_fusion_witness :
    chunkB ∈ repoTie._iter_chunks none none ∧
    (∃ r ∈ InMemoryRepository.search embedOne repoTie (str "zz") none 10 none,
      r.id = chunkB.id) := by
  refine ⟨by decide, ?_⟩
  have h := search_fusion embedOne repoTie (str "zz") none 10 none (by decide)
    (by with_unfolding_all decide) chunkB (by decide)
  exact h.1.mpr (Or.inl (by decide))

/-! ## Claim C2 -/

/-- C2 (counterexample): in the fixture repository the chunk enumeration is
`[a, b]`, `a` scores 1 by vector only and `b` scores 1 lexically only, and the
search output is `[b, a]` — two equal-score results in the opposite of first-seen
enumeration order, because ties follow the fused score dict's insertion order
(lexical entries first), not the chunk enumeration. -/
theorem search_tiebreak_counterexample :
    ¬ RespectsFirstSeenTies
        (InMemoryRepository.search embedOne repoTie (str "zz") none 10 none)
        ((repoTie._iter_chunks none none).map (fun c => c.id)) := by
  with_unfolding_all decide

/-- C2 (amended): search is deterministic, and among results with equal fused score
the order is the insertion order of the fused score dict — the lexically-matching
chunks (in chunk enumeration order) followed by the vector-only chunks (in chunk
enumeration order); each of the two groups is a subsequence of the enumeration. -/
theorem search_stable_tiebreak (embed : PyStr → List ℚ) (repo : InMemoryRepository)
    (q : PyStr) (f : Option SearchFilters) (lim : Int) (v : Option PyStr)
    (hwf : ReposWF repo) :
    (repo.search embed q f lim v = repo.search embed q f lim v) ∧
    ((repo._lexical_scores q f v).map Prod.fst).Sublist
      ((repo._iter_chunks f v).map (fun c => c.id)) ∧
    (((repo._vector_scores embed q f v).filter
        (fun kv => !(hasKey (repo._lexical_scores q f v) kv.1))).map Prod.fst).Sublist
      ((repo._iter_chunks f v).map (fun c => c.id)) ∧
    ((combinedScores embed repo q f v).map Prod.fst
      = (repo._lexical_scores q f v).map Prod.fst
        ++ ((repo._vector_scores embed q f v).filter
            (fun kv => !(hasKey (repo._lexical_scores q f v) kv.1))).map Prod.fst) ∧
    ∀ a b : SearchResult, [a, b].Sublist (repo.search embed q f lim v) →
      a.score = b.score →
      ((combinedScores embed repo q f v).map Prod.fst).indexOf a.id
        < ((combinedScores embed repo q f v).map Prod.fst).indexOf b.id := by
  have hnd := iter_ids_nodup repo f v hwf
  refine ⟨rfl, lex_keys_sublist repo q f v hnd, ?_, ?_, ?_⟩
  · exact ((List.filter_sublist _).map Prod.fst).trans
      (vec_keys_sublist embed repo q f v hnd)
  · rw [combinedScores_eq embed repo q f v hwf, List.map_append, List.map_map]
    rfl
  · intro a b hab htie
    have hproj := search_map_proj embed repo q f lim v hwf
    have hpair : [(a.id, a.score), (b.id, b.score)].Sublist
        (pythonTake lim (sortDesc (combinedScores embed repo q f v))) := by
      have h := hab.map (fun r => (r.id, r.score))
      rwa [hproj] at h
    have hsorted := hpair.trans (pythonTake_sublist lim _)
    have hcomb : [(a.id, a.score), (b.id, b.score)].Sublist
        (combinedScores embed repo q f v) :=
      sortDesc_tie_sublist (a.id, a.score) (b.id, b.score) htie _ hsorted
    have hkeys : [a.id, b.id].Sublist
        ((combinedScores embed repo q f v).map Prod.fst) := by
      have h := hcomb.map Prod.fst
      simpa using h
    exact pair_sublist_nodup_indexOf a.id b.id _
      (combined_keys_nodup embed repo q f v hwf) hkeys

/-- Witness: the lexical-key group of the fixture repository is a subsequence of
its chunk enumeration. -/
theorem search_stable_tiebreak_witness :
    ((repoTie._lexical_scores (str "zz") none none).map Prod.fst).Sublist
      ((repoTie._iter_chunks none none).map (fun c => c.id)) :=
  (search_stable_tiebreak embedOne repoTie (str "zz") none 10 none (by decide)).2.1

/-! ## Claim C3 -/

/-- C3 (counterexample): a request with `limit = -1` is not rejected — scoring runs
over both fixture candidates and one of the two ranked results is returned (Python
slice semantics drop the last one), and `limit = 0` silently yields an empty list;
there is no `InvalidRequest` path in the code. -/
theorem limit_validation_counterexample :
    (perform_search embedOne repoTie { query := str "zz", limit := -1 }).length = 1 ∧
    (combinedScores embedOne repoTie (str "zz") none none).length = 2 ∧
    perform_search embedOne repoTie { query := str "zz", limit := 0 } = [] := by
  with_unfolding_all decide

theorem perform_search_eq (embed : PyStr → List ℚ) (repo : InMemoryRepository)
    (request : SearchRequest) :
    perform_search embed repo request
      = repo.search embed request.query request.filters request.limit
          request.viewer_email := by
  unfold perform_search
  rw [ite_self]

/-- C3 (amended): no validation of `limit` exists; scoring always runs and the
ranked candidates are truncated with Python slice semantics — `limit = 0` returns
an empty list, a negative limit drops the last `|limit|` ranked candidates, and a
positive limit keeps at most `limit` of them. -/
theorem search_limit_truncation (embed : PyStr → List ℚ) (repo : InMemoryRepository)
    (request : SearchRequest) (hwf : ReposWF repo) :
    (request.limit = 0 → perform_search embed repo request = []) ∧
    (request.limit < 0 →
      (perform_search embed repo request).length
        = (combinedScores embed repo request.query request.filters
            request.viewer_email).length
          - min ((-request.limit).toNat)
              (combinedScores embed repo request.query request.filters
                request.viewer_email).length) ∧
    (0 < request.limit →
      (perform_search embed repo request).length
        = min request.limit.toNat
            (combinedScores embed repo request.query request.filters
              request.viewer_email).length) := by
  have hproj := search_map_proj embed repo request.query request.filters request.limit
    request.viewer_email hwf
  have hlen : (perform_search embed repo request).length
      = (pythonTake request.limit (sortDesc (combinedScores embed repo request.query
          request.filters request.viewer_email))).length := by
    rw [perform_search_eq, ← hproj, List.length_map]
  refine ⟨?_, ?_, ?_⟩
  · intro h0
    apply List.map_eq_nil_iff.mp
    rw [perform_search_eq, hproj, h0]
    unfold pythonTake
    rw [if_pos (le_refl (0 : Int))]
    rfl
  · intro hneg
    rw [hlen, pythonTake_length_neg _ _ hneg, (sortDesc_perm _).length_eq]
  · intro hpos
    rw [hlen, pythonTake_length_nonneg _ _ (le_of_lt hpos), (sortDesc_perm _).length_eq]

/-- Witness: with `limit = 5` the fixture search returns both candidates. -/
theorem search_limit_truncation_witness :
    (perform_search embedOne repoTie { query := str "zz", limit := 5 }).length
      = min ((5 : Int)).toNat
          (combinedScores embedOne repoTie (str "zz") none none).length :=
  (search_limit_truncation embedOne repoTie { query := str "zz", limit := 5 }
    (by decide)).2.2 (by decide)

/-! ## Claim C4 -/

/-- C4: the access filter default-allows documents without a configured allow-list,
admits a viewer iff their email matches an allow-list entry case-insensitively, and
when no viewer identity is supplied the candidate enumeration ignores the ACLs
entirely (all documents visible). -/
theorem access_filter_policy (repo : InMemoryRepository) (document_id email : PyStr)
    (filters : Option SearchFilters) (acls' : List (PyStr × List PyStr)) :
    (dictGet repo.acls document_id = none →
      repo._is_allowed document_id email = true) ∧
    (∀ allowed, dictGet repo.acls document_id = some allowed →
      (repo._is_allowed document_id email = true ↔
        ∃ a ∈ allowed, pyLower a = pyLower email)) ∧
    ({ repo with acls := acls' }._iter_chunks filters none
      = repo._iter_chunks filters none) := by
  refine ⟨?_, ?_, ?_⟩
  · intro h
    simp [InMemoryRepository._is_allowed, h]
  · intro allowed h
    simp [InMemoryRepository._is_allowed, h, List.mem_map, eq_comm]
  · rfl

/-- Witness: the case-insensitive match of the C4 access filter on the fixture
allow-list `["A@x.com"]` and viewer `"a@X.com"`. -/
theorem access_filter_policy_witness :
    InMemoryRepository._is_allowed repoAcl (str "d") (str "a@X.com") = true ↔
      ∃ a ∈ [str "A@x.com"], pyLower a = pyLower (str "a@X.com") :=
  (access_filter_policy repoAcl (str "d") (str "a@X.com") none []).2.1
    [str "A@x.com"] (by decide)

/-! ## Claim C10 -/

/-- C10: a configured-but-empty allow-list makes the document invisible to every
supplied viewer identity (the filter returns not-visible for every email), in
contrast with an absent allow-list (visible to all); an identified (non-empty)
viewer never receives chunks of an empty-allow-list document, so only omitting the
viewer identity bypasses the filter. -/
theorem empty_allowlist_blocks (repo : InMemoryRepository) (doc : Document)
    (document_id email : PyStr) (filters : Option SearchFilters) (vv : PyStr)
    (c : Chunk) :
    (dictGet repo.acls document_id = some [] →
      repo._is_allowed document_id email = false) ∧
    ((repo.upsert_document doc (some []))._is_allowed doc.id email = false) ∧
    (dictGet repo.acls document_id = none →
      repo._is_allowed document_id email = true) ∧
    (vv ≠ [] → c ∈ repo._iter_chunks filters (some vv) →
      ∀ d, dictGet repo.documents c.document_id = some d →
        dictGet repo.acls d.id ≠ some []) := by
  refine ⟨?_, ?_, ?_, ?_⟩
  · intro h
    simp [InMemoryRepository._is_allowed, h]
  · have hset : dictGet (repo.upsert_document doc (some [])).acls doc.id = some [] := by
      unfold InMemoryRepository.upsert_document
      exact dictGet_dictSet_self _ _ _
    simp [InMemoryRepository._is_allowed, hset]
  · intro h
    simp [InMemoryRepository._is_allowed, h]
  · intro hvv hc d hd
    obtain ⟨kv, hkv, hkvc, d0, hd0, hacl, _, _⟩ :=
      (mem_iter_chunks repo filters (some vv) c).mp hc
    rw [hd0] at hd
    injection hd with hd'
    subst hd'
    intro hemp
    have hacl2 : vv = [] ∨ repo._is_allowed d0.id vv = true := hacl
    rcases hacl2 with h1 | h2
    · exact hvv h1
    · have hfalse : repo._is_allowed d0.id vv = false := by
        simp [InMemoryRepository._is_allowed, hemp]
      rw [hfalse] at h2
      cases h2

/-- Witness: the empty-allow-list fixture blocks a concrete viewer. -/
theorem empty_allowlist_blocks_witness :
    InMemoryRepository._is_allowed repoEmptyAcl (str "d") (str "b@x.com") = false :=
  (empty_allowlist_blocks repoEmptyAcl docD (str "d") (str "b@x.com") none
    (str "v") chunkA).1 (by decide)


/-! ## Alerts lemmas -/

theorem bestPair_facts (keywords : List PyStr) :
    ∀ (chunks : List Chunk) (acc : Option Chunk × ℚ),
      (acc.2 ≤ (chunks.foldl (fun acc chunk =>
          if acc.2 < (chunkKeywordScore keywords chunk : ℚ)
          then (some chunk, (chunkKeywordScore keywords chunk : ℚ)) else acc) acc).2) ∧
      (∀ c ∈ chunks, (chunkKeywordScore keywords c : ℚ)
          ≤ (chunks.foldl (fun acc chunk =>
              if acc.2 < (chunkKeywordScore keywords chunk : ℚ)
              then (some chunk, (chunkKeywordScore keywords chunk : ℚ)) else acc) acc).2) ∧
      ((chunks.foldl (fun acc chunk =>
          if acc.2 < (chunkKeywordScore keywords chunk : ℚ)
          then (some chunk, (chunkKeywordScore keywords chunk : ℚ)) else acc) acc) = acc
        ∨ ∃ c ∈ chunks, (chunks.foldl (fun acc chunk =>
            if acc.2 < (chunkKeywordScore keywords chunk : ℚ)
            then (some chunk, (chunkKeywordScore keywords chunk : ℚ)) else acc) acc)
          = (some c, (chunkKeywordScore keywords c : ℚ))) := by
  intro chunks
  induction chunks with
  | nil => intro acc; exact ⟨le_refl _, fun c hc => absurd hc (List.not_mem_nil c), Or.inl rfl⟩
  | cons c0 cs ih =>
    intro acc
    rw [List.foldl_cons]
    by_cases hup : acc.2 < (chunkKeywordScore keywords c0 : ℚ)
    · rw [if_pos hup]
      obtain ⟨h1, h2, h3⟩ := ih (some c0, (chunkKeywordScore keywords c0 : ℚ))
      refine ⟨le_trans (le_of_lt hup) h1, ?_, ?_⟩
      · intro c hc
        rcases List.mem_cons.mp hc with rfl | hc'
        · exact h1
        · exact h2 c hc'
      · rcases h3 with h3 | ⟨c, hc, h3⟩
        · exact Or.inr ⟨c0, by simp, h3⟩
        · exact Or.inr ⟨c, by simp [hc], h3⟩
    · rw [if_neg hup]
      obtain ⟨h1, h2, h3⟩ := ih acc
      refine ⟨h1, ?_, ?_⟩
      · intro c hc
        rcases List.mem_cons.mp hc with rfl | hc'
        · exact le_trans (not_lt.mp hup) h1
        · exact h2 c hc'
      · rcases h3 with h3 | ⟨c, hc, h3⟩
        · exact Or.inl h3
        · exact Or.inr ⟨c, by simp [hc], h3⟩

theorem ruleAlert_some (candidate : AlertCandidate) (rule : PyStr × List PyStr)
    (a : Alert) (h : ruleAlert candidate rule = some a) :
    a.alert_type = rule.1 ∧ 0 < a.score ∧
    (∃ c ∈ candidate.chunks, a.score = (chunkKeywordScore rule.2 c : ℚ) ∧
      a.chunks = [{ text := c.text, speaker := c.speaker, start_ms := c.start_ms }]) ∧
    (∀ c ∈ candidate.chunks, (chunkKeywordScore rule.2 c : ℚ) ≤ a.score) := by
  obtain ⟨hlb, hub, hatt⟩ := bestPair_facts rule.2 candidate.chunks (none, 0)
  unfold ruleAlert at h
  rcases hbp : bestPair rule.2 candidate.chunks with ⟨bc, bs⟩
  rw [hbp] at h
  unfold bestPair at hbp
  cases bc with
  | none => cases h
  | some best_chunk =>
    have h2 : (if 0 < bs then some
        { alert_type := rule.1
          call_id := candidate.call_id
          title := candidate.title
          project := candidate.project
          workspace_id := candidate.workspace_id
          chunks := [{ text := best_chunk.text, speaker := best_chunk.speaker,
                       start_ms := best_chunk.start_ms }]
          score := bs
          created_at := 0 } else (none : Option Alert)) = some a := h
    by_cases hpos : 0 < bs
    · rw [if_pos hpos] at h2
      injection h2 with h'
      subst h'
      rw [hbp] at hatt hub
      rcases hatt with hsame | ⟨c, hc, heq⟩
      · injection hsame with hs1 hs2
        cases hs1
      · injection heq with he1 he2
        injection he1 with he1'
        subst he1'
        refine ⟨rfl, hpos, ⟨best_chunk, hc, he2, rfl⟩, ?_⟩
        intro c' hc'
        exact hub c' hc'
    · rw [if_neg hpos] at h2
      cases h2

theorem foldl_append_filterMap {α β : Type _} (g : α → Option β) (l : List α) :
    ∀ acc : List β,
      l.foldl (fun bs x => bs ++ (g x).toList) acc = acc ++ l.filterMap g := by
  induction l with
  | nil => intro acc; simp
  | cons x xs ih =>
    intro acc
    rw [List.foldl_cons, ih]
    cases hg : g x with
    | none => rw [List.filterMap_cons_none hg]; simp
    | some b => rw [List.filterMap_cons_some hg]; simp

theorem score_eq_filterMap (svc : AlertsService) (candidate : AlertCandidate) :
    svc.score candidate = svc.rules.filterMap (ruleAlert candidate) := by
  unfold AlertsService.score
  have h := foldl_append_filterMap (ruleAlert candidate) svc.rules []
  rw [List.nil_append] at h
  exact h

/-! ## Claim C8 -/

/-- C8 (counterexample): for a batch of two sibling chunks each containing
`"budget"` once, the emitted budget-risk Alert has score 1 — the best single
chunk's count — not the batch total 2 claimed by the spec. -/
theorem alert_score_total_counterexample :
    ¬ (∀ a ∈ AlertsService.init.score candC8,
        a.score = ((totalRuleScore
          ((dictGet AlertsService.init.rules a.alert_type).getD [])
          candC8.chunks : Nat) : ℚ)) := by
  with_unfolding_all decide

/-- C8 (amended): in keyword-only batch scoring, each chunk is scored by its own
total keyword occurrence count; an Alert's score is the maximum per-chunk score
(not the batch total), attained by the single promoted chunk whose excerpt the
Alert carries; a rule fires iff some chunk scores strictly positively; and the
alert types form a subsequence of the rule table, so there is at most one Alert
per rule per call. -/
theorem alerts_best_chunk_scoring (svc : AlertsService) (candidate : AlertCandidate) :
    (∀ a ∈ svc.score candidate,
      ∃ keywords, (a.alert_type, keywords) ∈ svc.rules ∧ 0 < a.score ∧
        (∃ c ∈ candidate.chunks, a.score = (chunkKeywordScore keywords c : ℚ) ∧
          a.chunks = [{ text := c.text, speaker := c.speaker, start_ms := c.start_ms }]) ∧
        (∀ c ∈ candidate.chunks, (chunkKeywordScore keywords c : ℚ) ≤ a.score)) ∧
    (∀ rule ∈ svc.rules, (∃ c ∈ candidate.chunks, 0 < chunkKeywordScore rule.2 c) →
      ∃ a ∈ svc.score candidate, a.alert_type = rule.1) ∧
    ((svc.score candidate).map (fun a => a.alert_type)).Sublist
      (svc.rules.map Prod.fst) := by
  refine ⟨?_, ?_, ?_⟩
  · intro a ha
    rw [score_eq_filterMap] at ha
    obtain ⟨rule, hrule, halert⟩ := List.mem_filterMap.mp ha
    obtain ⟨htype, hpos, hbest, hub⟩ := ruleAlert_some candidate rule a halert
    refine ⟨rule.2, ?_, hpos, hbest, hub⟩
    rw [htype]
    simpa using hrule
  · intro rule hrule ⟨c, hc, hcpos⟩
    obtain ⟨hlb, hub, hatt⟩ := bestPair_facts rule.2 candidate.chunks (none, 0)
    rcases hatt with hsame | ⟨c', hc', heq⟩
    · have h0 : (chunkKeywordScore rule.2 c : ℚ) ≤ 0 := by
        have hle := hub c hc
        rw [hsame] at hle
        exact hle
      exact absurd (lt_of_lt_of_le (by exact_mod_cast hcpos) h0) (lt_irrefl 0)
    · have hq : 0 < (chunkKeywordScore rule.2 c' : ℚ) := by
        have hle := hub c hc
        rw [heq] at hle
        exact lt_of_lt_of_le (by exact_mod_cast hcpos) hle
      have hbp2 : bestPair rule.2 candidate.chunks
          = (some c', (chunkKeywordScore rule.2 c' : ℚ)) := heq
      have halert : ruleAlert candidate rule = some
          { alert_type := rule.1
            call_id := candidate.call_id
            title := candidate.title
            project := candidate.project
            workspace_id := candidate.workspace_id
            chunks := [{ text := c'.text, speaker := c'.speaker, start_ms := c'.start_ms }]
            score := (chunkKeywordScore rule.2 c' : ℚ) } := by
        unfold ruleAlert
        rw [hbp2]
        show (if 0 < (chunkKeywordScore rule.2 c' : ℚ) then some
            { alert_type := rule.1
              call_id := candidate.call_id
              title := candidate.title
              project := candidate.project
              workspace_id := candidate.workspace_id
              chunks := [{ text := c'.text, speaker := c'.speaker, start_ms := c'.start_ms }]
              score := (chunkKeywordScore rule.2 c' : ℚ)
              created_at := 0 } else (none : Option Alert)) = _
        rw [if_pos hq]
      refine ⟨{ alert_type := rule.1
                call_id := candidate.call_id
                title := candidate.title
                project := candidate.project
                workspace_id := candidate.workspace_id
                chunks := [{ text := c'.text, speaker := c'.speaker, start_ms := c'.start_ms }]
                score := (chunkKeywordScore rule.2 c' : ℚ) }, ?_, rfl⟩
      rw [score_eq_filterMap]
      exact List.mem_filterMap.mpr ⟨rule, hrule, halert⟩
  · rw [score_eq_filterMap]
    apply filterMap_map_sublist
    intro rule _ a halert
    exact (ruleAlert_some candidate rule a halert).1

/-- Witness: the amended C8 statement applied to the fixture batch — the budget
rule fires on the chunk containing `"budget"`. -/
theorem alerts_best_chunk_scoring_witness :
    ∃ a ∈ AlertsService.init.score candC8, a.alert_type = str "budget_risk" :=
  (alerts_best_chunk_scoring AlertsService.init candC8).2.1
    (str "budget_risk",
      [str "budget", str "over budget", str "too expensive", str "cost overrun",
       str "scope creep", str "out of scope", str "change order", str "cannot afford"])
    (by decide)
    ⟨{ id := str "c1", document_id := str "d", idx := 0,
       text := str "budget", token_count := 1 }, by decide, by decide⟩

/-! ## Claim C9 -/

/-- C9 (code bug): the detector compares the upper-case markers `"RISK"` and
`"BUDGET"` against the lower-case SignalType values (`"risk_budget"`, ...), so the
`"high"` branch is unreachable and every Alert — budget risks included — gets
severity `"medium"`, contradicting the documented severity rule. -/
theorem create_alert_severity_always_medium (newId : PyStr) (chunk : KbChunk)
    (signal_type : SignalType) :
    (_create_alert newId chunk signal_type).severity = str "medium" := by
  cases signal_type <;> rfl

end Savas
